import Mathlib

/-!
Verification of the lecture-transcript correction system
(`final_system.py`, `nova_system.py`, `improved_evaluator.py`,
`batch_processor.py`).

The Python source is shallowly embedded: strings are `List Char` /
`String`, Python floats are modelled as exact rationals `ℚ`, and each
regular expression used by the source is embedded as an explicit matcher
implementing Python `re` semantics (leftmost, non-overlapping substitution,
greedy quantifiers, word boundaries) for that concrete pattern.

Modelling notes, applying throughout:
* Python `\s` / `str.strip` whitespace is modelled by `Char.isWhitespace`
  (space, tab, CR, LF); the transcripts and patterns of this repository
  use no other whitespace characters.
* Python `\d` is modelled by `Char.isDigit`; the timestamp headers of this
  repository use ASCII digits only.
* Python `\w` (Unicode word character) is modelled by `isWordCh` below,
  which covers ASCII alphanumerics, underscore, hiragana, katakana (with
  the prolonged-sound mark) and the unified CJK ideographs — the full
  character repertoire of the source's patterns and data.
-/

namespace TranscriptAI

/-- Python word character (`\w`) for the repertoire used by this code:
ASCII alphanumerics, `_`, hiragana, katakana (incl. `ー`), CJK ideographs. -/
def isWordCh (c : Char) : Bool :=
  c.isAlphanum || c = '_' ||
  (0x3041 ≤ c.toNat && c.toNat ≤ 0x3096) ||
  (0x30A1 ≤ c.toNat && c.toNat ≤ 0x30FA) || c.toNat = 0x30FC ||
  (0x4E00 ≤ c.toNat && c.toNat ≤ 0x9FFF)

/-- The hiragana class `[あ-ん]` (U+3042 – U+3093) used by the source's
punctuation rules and the escalation gate. -/
def isHiragana (c : Char) : Bool :=
  0x3042 ≤ c.toNat && c.toNat ≤ 0x3093

/-- Python `str.strip()` on a character list. -/
def pyStrip (cs : List Char) : List Char :=
  ((cs.dropWhile Char.isWhitespace).reverse.dropWhile Char.isWhitespace).reverse

/-- Python `str.strip()` on strings. -/
def pyStripS (s : String) : String := ⟨pyStrip s.data⟩

/-- Python substring containment `needle in haystack`. -/
def containsSub (needle haystack : List Char) : Bool :=
  (List.range (haystack.length + 1)).any (fun i => needle.isPrefixOf (haystack.drop i))

/-- Python `needle in haystack` on strings. -/
def containsSubS (needle haystack : String) : Bool :=
  containsSub needle.data haystack.data

/-- Python `min` on two rationals (kernel-computable). -/
def pymin (a b : ℚ) : ℚ := if a ≤ b then a else b

/-- Python `max` on two rationals (kernel-computable). -/
def pymax (a b : ℚ) : ℚ := if b ≤ a then a else b

/-- The first character, if any, is not whitespace. -/
def headNotWs : List Char → Bool
  | [] => true
  | c :: _ => !c.isWhitespace

/-- The first character, if any, is not a digit (greedy `\d+` stops
exactly at such a boundary). -/
def noDigitHead : List Char → Bool
  | [] => true
  | c :: _ => !c.isDigit

/-- Maximal run of decimal digits at the front (the greedy `\d+`,
together with its remainder). -/
def takeDigits : List Char → List Char × List Char
  | [] => ([], [])
  | c :: cs =>
    if c.isDigit then
      let p := takeDigits cs
      (c :: p.1, p.2)
    else ([], c :: cs)

/-- The greedy `\d+`: succeeds only when at least one digit is present. -/
def parseNum (cs : List Char) : Option (List Char × List Char) :=
  match takeDigits cs with
  | ([], _) => none
  | (d, r) => some (d, r)

/-- Consume a literal `:`. -/
def parseColon : List Char → Option (List Char)
  | ':' :: r => some r
  | _ => none

/-- Consume the literal separator of the header pattern, a space, a
hyphen and a space. -/
def parseSep : List Char → Option (List Char)
  | ' ' :: '-' :: ' ' :: r => some r
  | _ => none

/-- Consume a literal `[`. -/
def parseLBr : List Char → Option (List Char)
  | '[' :: r => some r
  | _ => none

/-- Consume a literal `]`. -/
def parseRBr : List Char → Option (List Char)
  | ']' :: r => some r
  | _ => none

/-- Match the timestamp sub-pattern `\d+:\d+:\d+` at the front of the
input, returning the consumed characters and the remainder.  The greedy
`\d+` needs no backtracking because `:` and `]` are not digits. -/
def matchTime (cs : List Char) : Option (List Char × List Char) := do
  let p1 ← parseNum cs
  let r2 ← parseColon p1.2
  let p2 ← parseNum r2
  let r4 ← parseColon p2.2
  let p3 ← parseNum r4
  some (p1.1 ++ ':' :: p2.1 ++ ':' :: p3.1, p3.2)

/-- Match the header pattern `\[\d+:\d+:\d+ - \d+:\d+:\d+\]` at the front
of the input; on success return the two captured timestamps and the
remainder after the closing bracket. -/
def matchHeader (cs : List Char) : Option (List Char × List Char × List Char) := do
  let r0 ← parseLBr cs
  let p1 ← matchTime r0
  let r2 ← parseSep p1.2
  let p2 ← matchTime r2
  let r4 ← parseRBr p2.2
  some (p1.1, p2.1, r4)

/-- A well-formed timestamp string: the timestamp pattern consumes it
completely. -/
def validTime (t : List Char) : Prop := matchTime t = some (t, [])

instance (t : List Char) : Decidable (validTime t) :=
  inferInstanceAs (Decidable (matchTime t = some (t, [])))

/-- One unit produced by `re.split` with the capturing header pattern:
the two captured timestamps and the raw text that follows up to the next
header (or the end of input). -/
structure RawUnit where
  t1 : List Char
  t2 : List Char
  content : List Char
deriving Repr, DecidableEq

/-- Fuel-driven scanner implementing
`re.split(r'(\[\d+:\d+:\d+ - \d+:\d+:\d+\])', text)`:
returns the text before the first header together with the ordered list
of (captured timestamps, following text) units, scanning left to right
and matching the header pattern at each position.  Every step consumes
at least one character, so a fuel of the input length plus one always
suffices (`scan` below); the fuel only makes the recursion structural. -/
def scanF : Nat → List Char → List Char × List RawUnit
  | 0, cs => (cs, [])
  | f + 1, cs =>
    match matchHeader cs with
    | some (t1, t2, rest) =>
      let p := scanF f rest
      ([], ⟨t1, t2, p.1⟩ :: p.2)
    | none =>
      match cs with
      | [] => ([], [])
      | c :: cs2 =>
        let p := scanF f cs2
        (c :: p.1, p.2)

/-- Embedding of the capturing `re.split` of `process_segments`. -/
def scan (cs : List Char) : List Char × List RawUnit := scanF (cs.length + 1) cs

/-! ## The rule-rewrite machinery of `LightweightCorrector.correct_text`

Each Python pattern is embedded as a `Matcher`: given the character just
before the current position (`none` at the start of the string, used for
the word-boundary assertion `\b`) and the remaining characters, it either
fails or returns the number of characters the match consumes together
with the replacement text.  `subAll` then implements `re.sub` (leftmost,
non-overlapping) and `search` implements `re.search`.  None of the
embedded patterns can match the empty string, so `subAll` always advances
and a fuel of the input length suffices. -/

/-- A matcher for one concrete regular expression. -/
def Matcher : Type := Option Char → List Char → Option (Nat × List Char)

/-- `re.sub` driver: scan left to right, replacing non-overlapping
matches; `prev` is the previous character of the original string. -/
def subAllF (m : Matcher) : Nat → Option Char → List Char → List Char
  | 0, _, cs => cs
  | _ + 1, _, [] => []
  | f + 1, prev, c :: cs =>
    match m prev (c :: cs) with
    | some (n, repl) =>
      if n = 0 then c :: subAllF m f (some c) cs
      else repl ++ subAllF m f ((c :: cs)[n - 1]?) ((c :: cs).drop n)
    | none => c :: subAllF m f (some c) cs

/-- `re.sub(pattern, replacement, cs)` for the embedded pattern `m`. -/
def subAll (m : Matcher) (cs : List Char) : List Char :=
  subAllF m cs.length none cs

/-- `re.search` as a Boolean: does the pattern match at some position? -/
def searchM (m : Matcher) : Option Char → List Char → Bool
  | _, [] => false
  | prev, c :: cs => (m prev (c :: cs)).isSome || searchM m (some c) cs

/-- `re.search(pattern, cs) is not None` for the embedded pattern `m`. -/
def search (m : Matcher) (cs : List Char) : Bool := searchM m none cs

/-- `\b` on the left of a word character: the previous character is
absent or not a word character. -/
def prevNonWord : Option Char → Bool
  | none => true
  | some c => !(isWordCh c)

/-- `\b` on the right of a word character: the next character is absent
or not a word character. -/
def nextNonWord : List Char → Bool
  | [] => true
  | c :: _ => !(isWordCh c)

/-- Plain literal pattern. -/
def mLit (lit repl : String) : Matcher := fun _ cs =>
  if lit.data.isPrefixOf cs then some (lit.data.length, repl.data) else none

/-- Literal pattern wrapped in `\b … \b` (all our literals start and end
with word characters, so `\b` amounts to the neighbour not being a word
character). -/
def mLitBB (lit repl : String) : Matcher := fun prev cs =>
  if prevNonWord prev && lit.data.isPrefixOf cs &&
      nextNonWord (cs.drop lit.data.length) then
    some (lit.data.length, repl.data)
  else none

/-- The pattern `\b松尾研\b(?!究室)` (the negative lookahead is kept even
though the `\b` already excludes a following word character). -/
def mMatsuo : Matcher := fun prev cs =>
  if prevNonWord prev && "松尾研".data.isPrefixOf cs &&
      nextNonWord (cs.drop 3) && !("究室".data.isPrefixOf (cs.drop 3)) then
    some (3, "松尾研究室".data)
  else none

/-- The next character is whitespace or the string ends here. -/
def wsOrEnd : List Char → Bool
  | [] => true
  | c :: _ => c.isWhitespace

/-- The next character exists and is whitespace (the lookahead `(?=\s)`). -/
def wsHead : List Char → Bool
  | [] => false
  | c :: _ => c.isWhitespace

/-- Literal pattern with the lookahead `(?=\s|$)`. -/
def mLitWsEnd (lit repl : String) : Matcher := fun _ cs =>
  if lit.data.isPrefixOf cs && wsOrEnd (cs.drop lit.data.length) then
    some (lit.data.length, repl.data)
  else none

/-- Backtracking search for `(\w+)になる\1\b` at the current position:
try the group length `k` from the longest word run downwards (Python's
greedy `\w+`). -/
def tryRepNinaru (cs : List Char) : Nat → Option (Nat × List Char)
  | 0 => none
  | k + 1 =>
    let w := cs.take (k + 1)
    if ("になる".data ++ w).isPrefixOf (cs.drop (k + 1)) &&
        nextNonWord (cs.drop (2 * (k + 1) + 3)) then
      some (2 * (k + 1) + 3, w)
    else tryRepNinaru cs k

/-- The pattern `\b(\w+)になる\1\b`, replacement `\1`. -/
def mRepNinaru : Matcher := fun prev cs =>
  if prevNonWord prev then tryRepNinaru cs (cs.takeWhile isWordCh).length
  else none

/-- Backtracking search for `(\w+)\s+\1(?=\s)` at the current position.
For a fixed group, the greedy `\s+` necessarily consumes the whole
whitespace run, because the back-reference starts with a word character. -/
def tryRepSpace (cs : List Char) : Nat → Option (Nat × List Char)
  | 0 => none
  | k + 1 =>
    let w := cs.take (k + 1)
    let after := cs.drop (k + 1)
    let sp := after.takeWhile Char.isWhitespace
    let r2 := after.drop sp.length
    if sp.length != 0 && w.isPrefixOf r2 && wsHead (r2.drop (k + 1)) then
      some ((k + 1) + sp.length + (k + 1), w)
    else tryRepSpace cs k

/-- The pattern `\b(\w+)\s+\1(?=\s)`, replacement `\1`. -/
def mRepSpace : Matcher := fun prev cs =>
  if prevNonWord prev then tryRepSpace cs (cs.takeWhile isWordCh).length
  else none

/-- The filler pattern `\s*[えあ]+ー*\s*`, replacement one space.  All
quantifiers are greedy with nothing following, so maximal munch. -/
def mFillerEa : Matcher := fun _ cs =>
  let sp1 := (cs.takeWhile Char.isWhitespace).length
  let r1 := cs.drop sp1
  let ea := (r1.takeWhile (fun c => c = 'え' || c = 'あ')).length
  if ea = 0 then none
  else
    let r2 := r1.drop ea
    let ds := (r2.takeWhile (fun c => c = 'ー')).length
    let r3 := r2.drop ds
    let sp2 := (r3.takeWhile Char.isWhitespace).length
    some (sp1 + ea + ds + sp2, [' '])

/-- The filler pattern `\s*あのー*\s*`, replacement one space. -/
def mFillerAno : Matcher := fun _ cs =>
  let sp1 := (cs.takeWhile Char.isWhitespace).length
  let r1 := cs.drop sp1
  if "あの".data.isPrefixOf r1 then
    let r2 := r1.drop 2
    let ds := (r2.takeWhile (fun c => c = 'ー')).length
    let r3 := r2.drop ds
    let sp2 := (r3.takeWhile Char.isWhitespace).length
    some (sp1 + 2 + ds + sp2, [' '])
  else none

/-- The filler pattern `なんか\s+`, replacement empty. -/
def mFillerNanka : Matcher := fun _ cs =>
  if "なんか".data.isPrefixOf cs then
    let sp := ((cs.drop 3).takeWhile Char.isWhitespace).length
    if sp = 0 then none else some (3 + sp, [])
  else none

/-- The naturalisation pattern `だったのかな[、。]`, replacement `でした。`. -/
def mDattanokana : Matcher := fun _ cs =>
  if "だったのかな".data.isPrefixOf cs then
    match cs.drop 6 with
    | c :: _ => if c = '、' || c = '。' then some (7, "でした。".data) else none
    | [] => none
  else none

/-- A punctuation-insertion pattern `LIT([あ-んA-Za-z])`, replacement
`LIT。\1`. -/
def mPunctAfter (lit : String) : Matcher := fun _ cs =>
  if lit.data.isPrefixOf cs then
    match cs.drop lit.data.length with
    | c :: _ =>
      if isHiragana c || c.isAlpha then
        some (lit.data.length + 1, lit.data ++ '。' :: [c])
      else none
    | [] => none
  else none

/-- The clean-up pattern `\s{2,}`, replacement one space. -/
def mWs2 : Matcher := fun _ cs =>
  let sp := (cs.takeWhile Char.isWhitespace).length
  if 2 ≤ sp then some (sp, [' ']) else none

/-- The clean-up pattern `\s*([。、！？])`, replacement `\1`. -/
def mWsPunct : Matcher := fun _ cs =>
  let sp := (cs.takeWhile Char.isWhitespace).length
  match cs.drop sp with
  | c :: _ =>
    if c = '。' || c = '、' || c = '！' || c = '？' then some (sp + 1, [c])
    else none
  | [] => none

/-- Apply correction rules in order (the Python `for` loops over the
pattern dictionaries and lists): for each rule, if `re.search` finds a
match, replace all occurrences with `re.sub` and append the rule's log
label. -/
def applyRules : List Char → List String → List (Matcher × String) →
    List Char × List String
  | txt, log, [] => (txt, log)
  | txt, log, rule :: rest =>
    if search rule.1 txt then applyRules (subAll rule.1 txt) (log ++ [rule.2]) rest
    else applyRules txt log rest

/-- `self.tech_terms` of `final_system.py`, in dictionary insertion order,
with the log label `専門用語: {replacement}`. -/
def tech_terms : List (Matcher × String) :=
  [(mLitBB "ベルト" "ベルトン", "専門用語: ベルトン"),
   (mLitBB "ベル ト" "ベルトン", "専門用語: ベルトン"),
   (mLitBB "ジーピーティー" "GPT", "専門用語: GPT"),
   (mLitBB "ラーム" "Llama", "専門用語: Llama"),
   (mLitBB "エルエム" "LLM", "専門用語: LLM"),
   (mMatsuo, "専門用語: 松尾研究室"),
   (mLit "とも配も" "ともかく", "専門用語: ともかく"),
   (mLit "編集BERT" "BERT", "専門用語: BERT"),
   (mLit "あの後単語" "後ほど", "専門用語: 後ほど")]

/-- `self.ending_fixes`, log label `語尾修正: {replacement}`. -/
def ending_fixes : List (Matcher × String) :=
  [(mLitWsEnd "申しす" "申します", "語尾修正: 申します"),
   (mLitWsEnd "ございす" "ございます", "語尾修正: ございます"),
   (mLitWsEnd "思いす" "思います", "語尾修正: 思います"),
   (mLit "りがとうございす" "ありがとうございます", "語尾修正: ありがとうございます")]

/-- `self.repetition_patterns`, log label `繰り返し除去`. -/
def repetition_patterns : List (Matcher × String) :=
  [(mRepNinaru, "繰り返し除去"),
   (mRepSpace, "繰り返し除去")]

/-- `self.filler_patterns`, log label `フィラー除去`. -/
def filler_patterns : List (Matcher × String) :=
  [(mFillerEa, "フィラー除去"),
   (mFillerAno, "フィラー除去"),
   (mFillerNanka, "フィラー除去")]

/-- `self.naturalness_rules`, log label `自然化`. -/
def naturalness_rules : List (Matcher × String) :=
  [(mDattanokana, "自然化"),
   (mLit "あるのかなと思" "あると思", "自然化"),
   (mLit "かなというふう" "かと思", "自然化"),
   (mLit "っていう" "という", "自然化"),
   (mLit "だったりとか" "や", "自然化")]

/-- `self.punctuation_rules`, log label `句読点追加`. -/
def punctuation_rules : List (Matcher × String) :=
  [(mPunctAfter "申します", "句読点追加"),
   (mPunctAfter "ございます", "句読点追加"),
   (mPunctAfter "思います", "句読点追加")]

/-- The simple quality formula of `correct_text`:
`min(1.0, len(corrections_log) / 5 + 0.3)`. -/
def simple_quality (log : List String) : ℚ :=
  pymin 1 ((log.length : ℚ) / 5 + 3 / 10)

/-- The staged rewriting of `correct_text`: the six pattern stages in
source order (running the six consecutive Python loops equals one pass
over the concatenated rule list), then the two clean-up substitutions
and the final `strip`; returns the corrected text and the correction
log. -/
def correct_text_run (text : List Char) : List Char × List String :=
  match applyRules text [] (tech_terms ++ ending_fixes ++ repetition_patterns ++
      filler_patterns ++ naturalness_rules ++ punctuation_rules) with
  | (t6, log) => (pyStrip (subAll mWsPunct (subAll mWs2 t6)), log)

/-- `LightweightCorrector.correct_text` on character lists: the staged
rewriting together with the simple quality score. -/
def correct_text_chars (text : List Char) : List Char × List String × ℚ :=
  match correct_text_run text with
  | (c, log) => (c, log, simple_quality log)

/-- `LightweightCorrector.correct_text` on strings: returns the corrected
text, the correction log and the quality score. -/
def correct_text (text : String) : String × List String × ℚ :=
  match correct_text_chars text.data with
  | (c, log, q) => (⟨c⟩, log, q)

/-! ## Segmentation (`LightweightCorrector.process_segments`) -/

/-- One output segment of `process_segments` (the Python result dict). -/
structure Segment where
  id : Nat
  start_time : String
  end_time : String
  original : String
  corrected : String
  corrections : List String
  quality : ℚ
deriving Repr, DecidableEq

/-- `re.search` for the header pattern: first match at any position,
returning the two captured groups. -/
def findTs : List Char → Option (List Char × List Char)
  | [] => none
  | c :: cs =>
    match matchHeader (c :: cs) with
    | some (t1, t2, _) => some (t1, t2)
    | none => findTs cs

/-- The timestamp re-extraction of `process_segments`: `re.search` on the
captured header text, falling back to the sentinel `00:00:00`. -/
def extract_ts (header : List Char) : List Char × List Char :=
  match findTs header with
  | some p => p
  | none => ("00:00:00".data, "00:00:00".data)

/-- The exact text of a captured header piece, `[t1 - t2]`. -/
def headerText (u : RawUnit) : List Char :=
  '[' :: u.t1 ++ ' ' :: '-' :: ' ' :: u.t2 ++ ']' :: []

/-- The loop body of `process_segments`: skip whitespace-only content,
otherwise correct the stripped content and append a segment with
`id = len(results) + 1`. -/
def segStep (results : List Segment) (u : RawUnit) : List Segment :=
  let content := pyStrip u.content
  if content = [] then results
  else
    let ts := extract_ts (headerText u)
    let r := correct_text_chars content
    results ++ [⟨results.length + 1, ⟨ts.1⟩, ⟨ts.2⟩, ⟨content⟩, ⟨r.1⟩, r.2.1, r.2.2⟩]

/-- `LightweightCorrector.process_segments`: split on the capturing
header pattern and process the (header, following text) pairs in order. -/
def process_segments (text : String) : List Segment :=
  ((scan text.data).2).foldl segStep []

/-- The segment `segStep` builds for a kept unit, with its assigned id. -/
def mkSegment (k : Nat) (u : RawUnit) : Segment :=
  ⟨k, ⟨(extract_ts (headerText u)).1⟩, ⟨(extract_ts (headerText u)).2⟩,
   ⟨pyStrip u.content⟩, ⟨(correct_text_chars (pyStrip u.content)).1⟩,
   (correct_text_chars (pyStrip u.content)).2.1,
   (correct_text_chars (pyStrip u.content)).2.2⟩

/-- Specification form of the `process_segments` loop: segments for the
non-whitespace units, ids counted from `n + 1`. -/
def segsGo (n : Nat) : List RawUnit → List Segment
  | [] => []
  | u :: us =>
    if pyStrip u.content = [] then segsGo n us
    else mkSegment (n + 1) u :: segsGo (n + 1) us

/-- The output serialisation of one segment used by `main`
(`[start - end]\n<corrected>\n\n`). -/
def serializeSegment (s : Segment) : String :=
  "[" ++ s.start_time ++ " - " ++ s.end_time ++ "]" ++ "\n" ++ s.corrected ++ "\n\n"

/-- The output file written by `main`: the loop writes each segment's
serialisation in order. -/
def write_output : List Segment → String
  | [] => ""
  | s :: rest => serializeSegment s ++ write_output rest

/-- The bracketed header text of a segment, `[start - end]`. -/
def headerOf (s : Segment) : String :=
  "[" ++ s.start_time ++ " - " ++ s.end_time ++ "]"

/-- The raw unit the scanner recovers from one serialised segment: its
two timestamps and the newline-wrapped corrected text. -/
def unitOf (s : Segment) : RawUnit :=
  ⟨s.start_time.data, s.end_time.data, '\n' :: s.corrected.data ++ ['\n', '\n']⟩

/-! ## The improved evaluator (`improved_evaluator.py`) -/

/-- One segment of `extract_segments_improved` (the `line_number`
bookkeeping field of the Python dict is unused by every consumer and by
the claims, and is omitted). -/
structure ImpSeg where
  timestamp : String
  content : String
deriving Repr, DecidableEq

/-- Python `content.split('\n')`: split at every newline, keeping empty
pieces. -/
def splitNl : List Char → List (List Char)
  | [] => [[]]
  | c :: cs =>
    match splitNl cs with
    | [] => [[]]
    | x :: xs => if c = '\n' then [] :: x :: xs else (c :: x) :: xs

/-- `re.match` of the header pattern on a line: anchored at the start,
trailing text allowed. -/
def isHeaderLine (l : List Char) : Bool := (matchHeader l).isSome

/-- The line loop of `extract_segments_improved`: a header line flushes
the current segment (if its content is non-empty) and starts a new one;
a non-empty line is appended to the content with a trailing space; the
last segment is flushed at the end. -/
def extractGo (cur : ImpSeg) : List (List Char) → List ImpSeg
  | [] => if cur.content = "" then [] else [cur]
  | l :: ls =>
    let l2 := pyStrip l
    if isHeaderLine l2 then
      (if cur.content = "" then [] else [cur]) ++ extractGo ⟨⟨l2⟩, ""⟩ ls
    else if l2 ≠ [] then
      extractGo ⟨cur.timestamp, cur.content ++ ⟨l2⟩ ++ " "⟩ ls
    else extractGo cur ls

/-- `extract_segments_improved` of `improved_evaluator.py`. -/
def extract_segments_improved (content : String) : List ImpSeg :=
  extractGo ⟨"", ""⟩ (splitNl content.data)

/-- `detect_obvious_improvements`: a curated literal (bad, good) pair
with the bad phrase in the original and the good phrase in the corrected
text.  The three bad patterns contain no metacharacters, so `re.search`
is substring containment. -/
def detect_obvious_improvements (original corrected : String) : Bool :=
  (containsSubS "Day2になるDay2" original && containsSubS "Day2" corrected) ||
  (containsSubS "ますタイトル" original && containsSubS "ます。タイトル" corrected) ||
  (containsSubS "かなと思っている" original && containsSubS "かと思" corrected)

/-- `detect_deterioration`: a truncated polite closing phrase, or an
important keyword of the original missing from the corrected text. -/
def detect_deterioration (original corrected : String) : Bool :=
  (containsSubS "ありがとうございます" original && containsSubS "りがとうございます" corrected) ||
  (["講師", "講座", "皆さん", "研究室"].any
    (fun w => containsSubS w original && !containsSubS w corrected))

/-- `correction_weights.get(correction, 0.02)` of
`calculate_realistic_quality_score`. -/
def correction_weight (c : String) : ℚ :=
  if c = "technical_terms" then 1 / 5
  else if c = "repetition_removal" then 3 / 20
  else if c = "grammar_fixes" then 3 / 20
  else if c = "punctuation_improvement" then 1 / 10
  else if c = "naturalness_improvement" then 1 / 10
  else if c = "filler_removal" then 1 / 20
  else 1 / 50

/-- `calculate_realistic_quality_score` of `improved_evaluator.py`:
base 0.5, per-entry weights, length-ratio adjustment (denominator
`max(len(original), 1)`), obvious-improvement bonus, deterioration
penalty, final clamp to [0, 1]. -/
def calculate_realistic_quality_score (original corrected : String)
    (corrections : List String) : ℚ :=
  let s1 := corrections.foldl (fun s c => s + correction_weight c) (1 / 2)
  let lr : ℚ := (corrected.length : ℚ) / ((max original.length 1 : ℕ) : ℚ)
  let s2 := if 7 / 10 ≤ lr ∧ lr ≤ 13 / 10 then s1 + 1 / 10
            else if lr < 1 / 2 then s1 - 1 / 5 else s1
  let s3 := if detect_obvious_improvements original corrected then s2 + 3 / 20 else s2
  let s4 := if detect_deterioration original corrected then s3 - 3 / 10 else s3
  pymin (pymax s4 0) 1

/-- Python `str.split()` with no argument: split on whitespace runs,
dropping empty pieces. -/
def splitWsStep (c : Char) (p : List Char × List (List Char)) :
    List Char × List (List Char) :=
  if c.isWhitespace then ([], if p.1 = [] then p.2 else p.1 :: p.2)
  else (c :: p.1, p.2)

/-- Python `str.split()` with no argument. -/
def splitWs (cs : List Char) : List (List Char) :=
  let p := cs.foldr splitWsStep ([], [])
  if p.1 = [] then p.2 else p.1 :: p.2

/-- `len(re.findall(r'[CLASS]', cs))` for a character class. -/
def countIn (cls : List Char) (cs : List Char) : Nat :=
  (cs.filter (fun c => cls.contains c)).length

/-- The aggregate metrics record of `calculate_overall_metrics`. -/
structure OverallMetrics where
  character_reduction : Int
  character_reduction_ratio : ℚ
  sentence_count_change : Int
  punctuation_density_improvement : ℚ
deriving Repr, DecidableEq

/-- `calculate_overall_metrics` of `improved_evaluator.py`.  The Python
expression `(len(original) - len(corrected)) / len(original)` raises
`ZeroDivisionError` when the original content is empty; that exception is
modelled as `Except.error`.  The punctuation-density term carries its own
emptiness guard in the source and cannot raise. -/
def calculate_overall_metrics (original corrected : String) :
    Except String OverallMetrics :=
  if original.length = 0 then Except.error "ZeroDivisionError"
  else Except.ok
    { character_reduction := (original.length : Int) - corrected.length
      character_reduction_ratio :=
        ((original.length : ℚ) - corrected.length) / original.length
      sentence_count_change :=
        (countIn ['。', '！', '？'] corrected.data : Int) -
          countIn ['。', '！', '？'] original.data
      punctuation_density_improvement :=
        if splitWs corrected.data ≠ [] ∧ splitWs original.data ≠ [] then
          (countIn ['。', '、'] corrected.data : ℚ) / (splitWs corrected.data).length -
            (countIn ['。', '、'] original.data : ℚ) / (splitWs original.data).length
        else 0 }

/-! ## The Nova Micro integration (`nova_system.py`)

The external LLM service is opaque; the adapter `call_nova_micro` is
modelled by an oracle value of type `Option String`: `none` stands for
every failure mode the adapter catches (uninitialised client, API
exception, missing reply field — all of which make `call_nova_micro`
return `None`), and `some s` stands for a successful reply whose stripped
text is `s`. -/

/-- The escalation pattern `[あ-ん]{3,}も` tested at one position: at
least three hiragana followed by `も` (which is itself hiragana, so the
backtracking `{3,}` admits any split of the leading run). -/
def hiraMoAt (cs : List Char) : Bool :=
  let run := (cs.takeWhile isHiragana).length
  (List.range (run + 1)).any
    (fun k => decide (3 ≤ k) && ((cs.drop k).head? == some 'も'))

/-- The escalation pattern `バット[^ー]` tested at one position. -/
def battAt (cs : List Char) : Bool :=
  "バット".data.isPrefixOf cs &&
    (match cs.drop 3 with
     | c :: _ => c != 'ー'
     | [] => false)

/-- `re.search` for a position-wise Boolean pattern. -/
def anySuffix (p : List Char → Bool) : List Char → Bool
  | [] => p []
  | c :: cs => p (c :: cs) || anySuffix p cs

/-- `NovaCorrector.needs_llm_correction`: the fixed residual-defect
detectors (all but two are literal substrings). -/
def needs_llm_correction (text : String) : Bool :=
  anySuffix hiraMoAt text.data ||
  containsSubS "帰漏らし" text ||
  containsSubS "エポック" text ||
  containsSubS "簡易回" text ||
  anySuffix battAt text.data ||
  containsSubS "お腹切り" text ||
  containsSubS "円周部分" text ||
  containsSubS "ベルトンさん" text ||
  containsSubS "松尾岩澤研" text ||
  containsSubS "スレッド1" text ||
  containsSubS "Googleコラボ" text

/-- `NovaCorrector.enhanced_correct_text`, with the adapter reply as an
oracle: rule-based correction first; if the escalation gate fires and the
adapter returns a non-empty text different from the rule-corrected text,
use it, append `LLM文脈修正` and boost the quality by 0.3 capped at 1;
otherwise return the rule result unchanged. -/
def enhanced_correct_text (resp : Option String) (text : String) :
    String × List String × ℚ :=
  let r := correct_text text
  if needs_llm_correction r.1 then
    match resp with
    | some llm =>
      if llm ≠ "" ∧ llm ≠ r.1 then
        (llm, r.2.1 ++ ["LLM文脈修正"], pymin 1 (r.2.2 + 3 / 10))
      else r
    | none => r
  else r

/-- The `llm_used` field computed by `process_segments_enhanced`:
`any('LLM' in c for c in corrections)`. -/
def llm_used_flag (corrections : List String) : Bool :=
  corrections.any (fun c => containsSubS "LLM" c)

/-- One output segment of `process_segments_enhanced`. -/
structure NovaSegment where
  id : Nat
  start_time : String
  end_time : String
  original : String
  corrected : String
  corrections : List String
  quality : ℚ
  llm_used : Bool
deriving Repr, DecidableEq

/-- The loop body of `process_segments_enhanced`; `resp` maps a unit's
stripped text to the adapter reply the oracle would give for it. -/
def novaStep (resp : String → Option String) (results : List NovaSegment)
    (u : RawUnit) : List NovaSegment :=
  let content := pyStrip u.content
  if content = [] then results
  else
    let ts := extract_ts (headerText u)
    let r := enhanced_correct_text (resp ⟨content⟩) ⟨content⟩
    results ++ [⟨results.length + 1, ⟨ts.1⟩, ⟨ts.2⟩, ⟨content⟩, r.1, r.2.1, r.2.2,
      llm_used_flag r.2.1⟩]

/-- `NovaCorrector.process_segments_enhanced` with the adapter oracle. -/
def process_segments_enhanced (resp : String → Option String) (text : String) :
    List NovaSegment :=
  ((scan text.data).2).foldl (novaStep resp) []

/-! ## Batch statistics (`batch_processor.py`) -/

/-- The record written by `BatchProcessor.save_batch_stats` (without the
wall-clock `processing_timestamp` string). -/
structure BatchStats where
  total_segments : Nat
  llm_usage : Nat
  average_quality : ℚ
  high_quality_count : Nat
  total_cost_jpy : ℚ
  input_tokens : Nat
  output_tokens : Nat
deriving Repr, DecidableEq

/-- `BatchProcessor.save_batch_stats`: aggregate statistics over all
processed segments, with the division for `average_quality` guarded by
`if all_results else 0`; the accounting counters of the corrector are
explicit arguments. -/
def save_batch_stats (all_results : List NovaSegment) (total_cost : ℚ)
    (input_tokens output_tokens : Nat) : BatchStats :=
  { total_segments := all_results.length
    llm_usage := (all_results.filter (fun r => r.llm_used)).length
    average_quality :=
      if all_results ≠ [] then
        (all_results.map (fun r => r.quality)).sum / (all_results.length : ℚ)
      else 0
    high_quality_count := (all_results.filter (fun r => 7 / 10 < r.quality)).length
    total_cost_jpy := total_cost * 150
    input_tokens := input_tokens
    output_tokens := output_tokens }

/-! ## Definitions following the specification's wording

These two definitions do not embed source code: they formalise the
scoring formulas exactly as the specification states them, so that the
implementation can be compared against them. -/

/-- Clamp to the unit interval, `min(max(x, 0.0), 1.0)`. -/
def clamp01 (x : ℚ) : ℚ := pymin (pymax x 0) 1

/-- The correction category of a log entry of `correct_text`: the text
before the first colon (`専門用語`, `語尾修正`) or the whole label for
the colon-free categories. -/
def entry_category (s : String) : String :=
  ⟨s.data.takeWhile (fun c => c ≠ ':')⟩

/-- Stated by the specification: the lightweight score as `0.3 plus 0.2
per DISTINCT correction category detected, capped at 1.0`. -/
def spec_simple_score (text : String) : ℚ :=
  pymin 1 ((((correct_text text).2.1.map entry_category).dedup.length : ℚ) / 5 + 3 / 10)

/-- Stated by the specification: the per-category weight table of the
refined scorer, with no contribution outside the six categories. -/
def spec_category_weight (c : String) : ℚ :=
  if c = "technical_terms" then 1 / 5
  else if c = "repetition_removal" then 3 / 20
  else if c = "grammar_fixes" then 3 / 20
  else if c = "punctuation_improvement" then 1 / 10
  else if c = "naturalness_improvement" then 1 / 10
  else if c = "filler_removal" then 1 / 20
  else 0

/-- Stated by the claim for the refined scorer: clamp of base 0.5 plus
the weight once per DISTINCT detected category, plus the length-ratio
adjustment for `len(corrected)/len(original)`, plus the
obvious-improvement bonus, minus the deterioration penalty. -/
def spec_weighted_score (original corrected : String)
    (corrections : List String) : ℚ :=
  let lr : ℚ := (corrected.length : ℚ) / (original.length : ℚ)
  clamp01 (1 / 2 + (corrections.dedup.map spec_category_weight).sum
    + (if 7 / 10 ≤ lr ∧ lr ≤ 13 / 10 then 1 / 10
       else if lr < 1 / 2 then -(1 / 5) else 0)
    + (if detect_obvious_improvements original corrected then 3 / 20 else 0)
    + (if detect_deterioration original corrected then -(3 / 10) else 0))

/-- The length-ratio adjustment as the code computes it (denominator
`max(len(original), 1)`). -/
def length_adjust (original corrected : String) : ℚ :=
  let lr : ℚ := (corrected.length : ℚ) / ((max original.length 1 : ℕ) : ℚ)
  if 7 / 10 ≤ lr ∧ lr ≤ 13 / 10 then 1 / 10
  else if lr < 1 / 2 then -(1 / 5) else 0

/-! ## Parser and scanner lemmas -/

theorem takeDigits_append_eq (cs : List Char) :
    (takeDigits cs).1 ++ (takeDigits cs).2 = cs := by
  induction cs with
  | nil => simp [takeDigits]
  | cons c cs ih =>
    simp only [takeDigits]
    split
    · simpa using ih
    · simp

theorem parseNum_append_eq {cs d r : List Char} (h : parseNum cs = some (d, r)) :
    d ++ r = cs ∧ d ≠ [] := by
  unfold parseNum at h
  split at h
  · simp at h
  · rename_i d0 r0 hne heq
    simp only [Option.some.injEq, Prod.mk.injEq] at h
    obtain ⟨rfl, rfl⟩ := h
    have := takeDigits_append_eq cs
    rw [heq] at this
    exact ⟨this, fun hd => (hne hd).elim⟩

theorem parseColon_eq {cs r : List Char} (h : parseColon cs = some r) :
    cs = ':' :: r := by
  unfold parseColon at h
  split at h
  · simp only [Option.some.injEq] at h; subst h; rfl
  · simp at h

theorem parseSep_eq {cs r : List Char} (h : parseSep cs = some r) :
    cs = ' ' :: '-' :: ' ' :: r := by
  unfold parseSep at h
  split at h
  · simp only [Option.some.injEq] at h; subst h; rfl
  · simp at h

theorem parseLBr_eq {cs r : List Char} (h : parseLBr cs = some r) :
    cs = '[' :: r := by
  unfold parseLBr at h
  split at h
  · simp only [Option.some.injEq] at h; subst h; rfl
  · simp at h

theorem parseRBr_eq {cs r : List Char} (h : parseRBr cs = some r) :
    cs = ']' :: r := by
  unfold parseRBr at h
  split at h
  · simp only [Option.some.injEq] at h; subst h; rfl
  · simp at h

theorem matchTime_structure {cs t r : List Char} (h : matchTime cs = some (t, r)) :
    cs = t ++ r ∧ t ≠ [] := by
  simp only [matchTime, Option.bind_eq_bind', Option.bind_eq_some', Option.some.injEq] at h
  obtain ⟨⟨d1, r1⟩, h1, r2, hc1, ⟨d2, r3⟩, h2, r4, hc2, ⟨d3, r5⟩, h3, hfin⟩ := h
  simp only [Prod.mk.injEq] at hfin
  obtain ⟨rfl, rfl⟩ := hfin
  obtain ⟨e1, ne1⟩ := parseNum_append_eq h1
  obtain ⟨e2, _⟩ := parseNum_append_eq h2
  obtain ⟨e3, _⟩ := parseNum_append_eq h3
  have c1 := parseColon_eq hc1
  have c2 := parseColon_eq hc2
  constructor
  · simp only at *
    rw [← e1, c1, ← e2, c2, ← e3]
    simp
  · simp [ne1]

theorem matchHeader_structure {cs t1 t2 r : List Char}
    (h : matchHeader cs = some (t1, t2, r)) :
    cs = '[' :: t1 ++ ' ' :: '-' :: ' ' :: t2 ++ ']' :: r ∧ t1 ≠ [] ∧ t2 ≠ [] := by
  simp only [matchHeader, Option.bind_eq_bind', Option.bind_eq_some', Option.some.injEq] at h
  obtain ⟨r0, hl, ⟨t1h, r1⟩, hm1, r2, hs, ⟨t2h, r3⟩, hm2, r4, hr, hfin⟩ := h
  simp only [Prod.mk.injEq] at hfin
  obtain ⟨rfl, rfl, rfl⟩ := hfin
  obtain ⟨e1, ne1⟩ := matchTime_structure hm1
  obtain ⟨e2, ne2⟩ := matchTime_structure hm2
  have hl2 := parseLBr_eq hl
  have hs2 := parseSep_eq hs
  have hr2 := parseRBr_eq hr
  refine ⟨?_, ne1, ne2⟩
  simp only at *
  rw [hl2, e1, hs2, e2, hr2]
  simp

theorem matchHeader_suffix_lt {cs t1 t2 r : List Char}
    (h : matchHeader cs = some (t1, t2, r)) : r.length < cs.length := by
  obtain ⟨e, _, _⟩ := matchHeader_structure h
  subst e
  simp only [List.length_cons, List.length_append, List.length_cons]
  omega


theorem scanF_succ (f : Nat) (cs : List Char) :
    scanF (f + 1) cs =
      match matchHeader cs with
      | some (t1, t2, rest) => ([], ⟨t1, t2, (scanF f rest).1⟩ :: (scanF f rest).2)
      | none =>
        match cs with
        | [] => ([], [])
        | c :: cs2 => (c :: (scanF f cs2).1, (scanF f cs2).2) := rfl

theorem scanF_fuel_irrel (f1 : Nat) :
    ∀ (cs : List Char) (f2 : Nat), cs.length < f1 → cs.length < f2 →
      scanF f1 cs = scanF f2 cs := by
  induction f1 with
  | zero => intro cs f2 h1; omega
  | succ f ih =>
    intro cs f2 h1 h2
    match f2, h2 with
    | g + 1, h2 =>
      show scanF (f + 1) cs = scanF (g + 1) cs
      rw [scanF_succ, scanF_succ]
      cases hm : matchHeader cs with
      | some p =>
        obtain ⟨t1, t2, rest⟩ := p
        have hlt := matchHeader_suffix_lt hm
        simp only [hm]
        rw [ih rest g (by omega) (by omega)]
      | none =>
        cases cs with
        | nil => simp [hm]
        | cons c cs2 =>
          simp only [List.length_cons] at h1 h2
          simp only [hm]
          rw [ih cs2 g (by omega) (by omega)]

theorem scan_nil : scan [] = ([], []) := rfl

theorem scan_of_match {cs t1 t2 rest : List Char}
    (h : matchHeader cs = some (t1, t2, rest)) :
    scan cs = ([], ⟨t1, t2, (scan rest).1⟩ :: (scan rest).2) := by
  have hlt := matchHeader_suffix_lt h
  unfold scan
  conv_lhs => rw [scanF_succ]
  simp only [h]
  rw [scanF_fuel_irrel cs.length rest (rest.length + 1) (by omega) (by omega)]

theorem scan_cons_of_nomatch {c : Char} {cs : List Char}
    (h : matchHeader (c :: cs) = none) :
    scan (c :: cs) = (c :: (scan cs).1, (scan cs).2) := by
  unfold scan
  conv_lhs => rw [scanF_succ]
  simp only [h, List.length_cons]


/-! ## Strip lemmas -/

theorem dropWhile_ws_eq_self {l : List Char} (h : headNotWs l = true) :
    l.dropWhile Char.isWhitespace = l := by
  cases l with
  | nil => rfl
  | cons c t =>
    simp only [headNotWs, Bool.not_eq_true'] at h
    simp [List.dropWhile_cons, h]

theorem headNotWs_dropWhile (l : List Char) :
    headNotWs (l.dropWhile Char.isWhitespace) = true := by
  cases h : l.dropWhile Char.isWhitespace with
  | nil => rfl
  | cons a t =>
    have hh := List.head?_dropWhile_not Char.isWhitespace l
    rw [h] at hh
    simp only [List.head?_cons] at hh
    simp [headNotWs, hh]

theorem headNotWs_head? {l : List Char} (h : headNotWs l = true) :
    ∀ c, l.head? = some c → c.isWhitespace = false := by
  cases l with
  | nil => intro c hc; simp at hc
  | cons a t =>
    intro c hc
    simp only [List.head?_cons, Option.some.injEq] at hc
    subst hc
    simpa [headNotWs] using h

theorem headNotWs_of_head? {l : List Char}
    (h : ∀ c, l.head? = some c → c.isWhitespace = false) : headNotWs l = true := by
  cases l with
  | nil => rfl
  | cons a t => simp [headNotWs, h a (by simp)]

theorem pyStrip_revHeadNotWs (cs : List Char) :
    headNotWs (pyStrip cs).reverse = true := by
  unfold pyStrip
  rw [List.reverse_reverse]
  exact headNotWs_dropWhile _

theorem pyStrip_headNotWs (cs : List Char) : headNotWs (pyStrip cs) = true := by
  apply headNotWs_of_head?
  intro c hc
  unfold pyStrip at hc
  rw [List.head?_reverse] at hc
  have hYne : (cs.dropWhile Char.isWhitespace).reverse.dropWhile Char.isWhitespace ≠ [] := by
    intro h
    rw [h] at hc
    simp at hc
  have hsplit : (cs.dropWhile Char.isWhitespace).reverse.takeWhile Char.isWhitespace ++
      (cs.dropWhile Char.isWhitespace).reverse.dropWhile Char.isWhitespace =
      (cs.dropWhile Char.isWhitespace).reverse :=
    List.takeWhile_append_dropWhile _ _
  have hlast : (cs.dropWhile Char.isWhitespace).reverse.getLast? = some c := by
    rw [← hsplit, List.getLast?_append_of_ne_nil _ hYne]
    exact hc
  rw [List.getLast?_reverse] at hlast
  exact headNotWs_head? (headNotWs_dropWhile cs) c hlast

theorem pyStrip_eq_self {l : List Char} (h1 : headNotWs l = true)
    (h2 : headNotWs l.reverse = true) : pyStrip l = l := by
  unfold pyStrip
  rw [dropWhile_ws_eq_self h1, dropWhile_ws_eq_self h2, List.reverse_reverse]

theorem pyStrip_idem (cs : List Char) : pyStrip (pyStrip cs) = pyStrip cs :=
  pyStrip_eq_self (pyStrip_headNotWs cs) (pyStrip_revHeadNotWs cs)

/-! ## Parser evaluation lemmas -/

theorem takeDigits_fst_digits (cs : List Char) :
    ∀ c ∈ (takeDigits cs).1, c.isDigit = true := by
  induction cs with
  | nil => simp [takeDigits]
  | cons c cs ih =>
    simp only [takeDigits]
    split
    · rename_i h
      intro x hx
      simp only at hx
      rcases List.mem_cons.mp hx with rfl | hx
      · exact h
      · exact ih x hx
    · simp

theorem takeDigits_snd_nodigit (cs : List Char) :
    noDigitHead (takeDigits cs).2 = true := by
  induction cs with
  | nil => rfl
  | cons c cs ih =>
    simp only [takeDigits]
    split
    · simpa using ih
    · rename_i h
      simp [noDigitHead, h]

theorem takeDigits_of_digits {d r : List Char} (hd : ∀ c ∈ d, c.isDigit = true)
    (hr : noDigitHead r = true) : takeDigits (d ++ r) = (d, r) := by
  induction d with
  | nil =>
    simp only [List.nil_append]
    cases r with
    | nil => rfl
    | cons c t =>
      simp only [noDigitHead, Bool.not_eq_true'] at hr
      simp [takeDigits, hr]
  | cons c d ih =>
    have hc : c.isDigit = true := hd c (by simp)
    have ih2 := ih (fun x hx => hd x (List.mem_cons_of_mem _ hx))
    have step : takeDigits (c :: (d ++ r)) =
        if c.isDigit then (c :: (takeDigits (d ++ r)).1, (takeDigits (d ++ r)).2)
        else ([], c :: (d ++ r)) := rfl
    rw [List.cons_append, step, if_pos hc, ih2]

theorem parseNum_eval {d r : List Char} (hne : d ≠ []) (hd : ∀ c ∈ d, c.isDigit = true)
    (hr : noDigitHead r = true) : parseNum (d ++ r) = some (d, r) := by
  unfold parseNum
  rw [takeDigits_of_digits hd hr]
  cases d with
  | nil => exact (hne rfl).elim
  | cons c t => rfl

theorem parseNum_digits {cs d r : List Char} (h : parseNum cs = some (d, r)) :
    (∀ c ∈ d, c.isDigit = true) ∧ noDigitHead r = true := by
  unfold parseNum at h
  split at h
  · simp at h
  · rename_i d0 r0 hne heq
    simp only [Option.some.injEq, Prod.mk.injEq] at h
    obtain ⟨rfl, rfl⟩ := h
    have h1 := takeDigits_fst_digits cs
    have h2 := takeDigits_snd_nodigit cs
    rw [heq] at h1 h2
    exact ⟨h1, h2⟩

theorem matchTime_eval {d1 d2 d3 r : List Char}
    (h1 : d1 ≠ []) (hd1 : ∀ c ∈ d1, c.isDigit = true)
    (h2 : d2 ≠ []) (hd2 : ∀ c ∈ d2, c.isDigit = true)
    (h3 : d3 ≠ []) (hd3 : ∀ c ∈ d3, c.isDigit = true)
    (hr : noDigitHead r = true) :
    matchTime ((d1 ++ ':' :: d2 ++ ':' :: d3) ++ r) =
      some (d1 ++ ':' :: d2 ++ ':' :: d3, r) := by
  have e1 : (d1 ++ ':' :: d2 ++ ':' :: d3) ++ r =
      d1 ++ (':' :: (d2 ++ (':' :: (d3 ++ r)))) := by simp
  rw [e1]
  unfold matchTime
  rw [parseNum_eval h1 hd1 (by rfl)]
  simp only [Option.bind_eq_bind', Option.some_bind']
  rw [show parseColon (':' :: (d2 ++ (':' :: (d3 ++ r)))) =
      some (d2 ++ (':' :: (d3 ++ r))) from rfl]
  simp only [Option.some_bind']
  rw [parseNum_eval h2 hd2 (by rfl)]
  simp only [Option.some_bind']
  rw [show parseColon (':' :: (d3 ++ r)) = some (d3 ++ r) from rfl]
  simp only [Option.some_bind']
  rw [parseNum_eval h3 hd3 hr]
  simp

theorem matchTime_parts {cs t r : List Char} (h : matchTime cs = some (t, r)) :
    ∃ d1 d2 d3, t = d1 ++ ':' :: d2 ++ ':' :: d3 ∧
      d1 ≠ [] ∧ (∀ c ∈ d1, c.isDigit = true) ∧
      d2 ≠ [] ∧ (∀ c ∈ d2, c.isDigit = true) ∧
      d3 ≠ [] ∧ (∀ c ∈ d3, c.isDigit = true) ∧
      noDigitHead r = true := by
  simp only [matchTime, Option.bind_eq_bind', Option.bind_eq_some', Option.some.injEq] at h
  obtain ⟨⟨d1, r1⟩, h1, r2, hc1, ⟨d2, r3⟩, h2, r4, hc2, ⟨d3, r5⟩, h3, hfin⟩ := h
  simp only [Prod.mk.injEq] at hfin
  obtain ⟨rfl, rfl⟩ := hfin
  obtain ⟨_, ne1⟩ := parseNum_append_eq h1
  obtain ⟨_, ne2⟩ := parseNum_append_eq h2
  obtain ⟨_, ne3⟩ := parseNum_append_eq h3
  obtain ⟨hall1, _⟩ := parseNum_digits h1
  obtain ⟨hall2, _⟩ := parseNum_digits h2
  obtain ⟨hall3, hnd3⟩ := parseNum_digits h3
  exact ⟨d1, d2, d3, rfl, ne1, hall1, ne2, hall2, ne3, hall3, hnd3⟩

theorem matchTime_valid {cs t r : List Char} (h : matchTime cs = some (t, r)) :
    validTime t := by
  obtain ⟨d1, d2, d3, rfl, ne1, hall1, ne2, hall2, ne3, hall3, _⟩ := matchTime_parts h
  unfold validTime
  have := matchTime_eval ne1 hall1 ne2 hall2 ne3 hall3 (r := []) rfl
  simpa using this

theorem matchTime_extend {t r : List Char} (h : validTime t)
    (hr : noDigitHead r = true) : matchTime (t ++ r) = some (t, r) := by
  obtain ⟨d1, d2, d3, he, ne1, hall1, ne2, hall2, ne3, hall3, _⟩ :=
    matchTime_parts (h : matchTime t = some (t, []))
  subst he
  exact matchTime_eval ne1 hall1 ne2 hall2 ne3 hall3 hr

theorem matchHeader_eval {t1 t2 r : List Char} (hs : validTime t1) (he : validTime t2) :
    matchHeader ('[' :: (t1 ++ (' ' :: '-' :: ' ' :: (t2 ++ (']' :: r))))) =
      some (t1, t2, r) := by
  unfold matchHeader
  rw [show parseLBr ('[' :: (t1 ++ (' ' :: '-' :: ' ' :: (t2 ++ (']' :: r))))) =
      some (t1 ++ (' ' :: '-' :: ' ' :: (t2 ++ (']' :: r)))) from rfl]
  simp only [Option.bind_eq_bind', Option.some_bind']
  rw [matchTime_extend hs (by rfl)]
  simp only [Option.some_bind']
  rw [show parseSep (' ' :: '-' :: ' ' :: (t2 ++ (']' :: r))) =
      some (t2 ++ (']' :: r)) from rfl]
  simp only [Option.some_bind']
  rw [matchTime_extend he (by rfl)]
  simp only [Option.some_bind']
  rfl

theorem matchHeader_valid {cs t1 t2 r : List Char}
    (h : matchHeader cs = some (t1, t2, r)) : validTime t1 ∧ validTime t2 := by
  simp only [matchHeader, Option.bind_eq_bind', Option.bind_eq_some', Option.some.injEq] at h
  obtain ⟨r0, hl, ⟨t1h, r1⟩, hm1, r2, hsp, ⟨t2h, r3⟩, hm2, r4, hrb, hfin⟩ := h
  simp only [Prod.mk.injEq] at hfin
  obtain ⟨rfl, rfl, rfl⟩ := hfin
  exact ⟨matchTime_valid hm1, matchTime_valid hm2⟩

theorem findTs_eval {t1 t2 : List Char} (hs : validTime t1) (he : validTime t2) :
    findTs ('[' :: (t1 ++ (' ' :: '-' :: ' ' :: (t2 ++ [']'])))) = some (t1, t2) := by
  have h := matchHeader_eval hs he (r := [])
  simp only [findTs]
  rw [h]

theorem extract_ts_eval {u : RawUnit} (hs : validTime u.t1) (he : validTime u.t2) :
    extract_ts (headerText u) = (u.t1, u.t2) := by
  have e : headerText u = '[' :: (u.t1 ++ (' ' :: '-' :: ' ' :: (u.t2 ++ [']']))) := by
    simp [headerText]
  unfold extract_ts
  rw [e, findTs_eval hs he]

theorem scan_units_valid_fuel (n : Nat) :
    ∀ (cs : List Char), cs.length ≤ n →
      ∀ u ∈ (scan cs).2, validTime u.t1 ∧ validTime u.t2 := by
  induction n with
  | zero =>
    intro cs hl u hu
    match cs, hl with
    | [], _ =>
      rw [scan_nil] at hu
      simp at hu
  | succ n ih =>
    intro cs hl u hu
    cases hm : matchHeader cs with
    | some p =>
      obtain ⟨t1, t2, rest⟩ := p
      rw [scan_of_match hm] at hu
      simp only [List.mem_cons] at hu
      rcases hu with rfl | hu
      · exact matchHeader_valid hm
      · have := matchHeader_suffix_lt hm
        exact ih rest (by omega) u hu
    | none =>
      cases cs with
      | nil =>
        rw [scan_nil] at hu
        simp at hu
      | cons c cs2 =>
        rw [scan_cons_of_nomatch hm] at hu
        simp only [List.length_cons] at hl
        exact ih cs2 (by omega) u hu

theorem scan_units_valid (cs : List Char) :
    ∀ u ∈ (scan cs).2, validTime u.t1 ∧ validTime u.t2 :=
  scan_units_valid_fuel cs.length cs le_rfl

/-! ## Segment-loop lemmas -/

theorem segStep_skip {acc : List Segment} {u : RawUnit}
    (h : pyStrip u.content = []) : segStep acc u = acc := by
  simp only [segStep]
  rw [if_pos h]

theorem segStep_keep {acc : List Segment} {u : RawUnit}
    (h : ¬pyStrip u.content = []) :
    segStep acc u = acc ++ [mkSegment (acc.length + 1) u] := by
  simp only [segStep, mkSegment]
  rw [if_neg h]

theorem foldl_segStep (units : List RawUnit) :
    ∀ acc : List Segment, units.foldl segStep acc = acc ++ segsGo acc.length units := by
  induction units with
  | nil => intro acc; simp [segsGo]
  | cons u us ih =>
    intro acc
    rw [List.foldl_cons]
    by_cases h : pyStrip u.content = []
    · rw [segStep_skip h, ih]
      simp [segsGo, h]
    · rw [segStep_keep h, ih]
      simp only [List.length_append, List.length_cons, List.length_nil]
      rw [List.append_assoc]
      congr 1
      simp [segsGo, h]

theorem process_segments_eq (text : String) :
    process_segments text = segsGo 0 (scan text.data).2 := by
  unfold process_segments
  rw [foldl_segStep]
  simp

theorem segsGo_ids (units : List RawUnit) : ∀ n : Nat,
    (segsGo n units).map Segment.id = List.range' (n + 1) (segsGo n units).length := by
  induction units with
  | nil => intro n; simp [segsGo]
  | cons u us ih =>
    intro n
    by_cases h : pyStrip u.content = []
    · unfold segsGo
      rw [if_pos h]
      exact ih n
    · unfold segsGo
      rw [if_neg h]
      simp only [List.map_cons, List.length_cons]
      rw [List.range'_succ]
      rw [show (mkSegment (n + 1) u).id = n + 1 from rfl]
      rw [ih (n + 1)]

theorem segsGo_headers (units : List RawUnit)
    (hv : ∀ u ∈ units, validTime u.t1 ∧ validTime u.t2) : ∀ n : Nat,
    ((segsGo n units).map (fun s => (s.start_time, s.end_time))).Sublist
      (units.map (fun u => ((⟨u.t1⟩ : String), (⟨u.t2⟩ : String)))) := by
  induction units with
  | nil => intro n; simp [segsGo]
  | cons u us ih =>
    intro n
    have hv1 := hv u (by simp)
    have hvs : ∀ x ∈ us, validTime x.t1 ∧ validTime x.t2 :=
      fun x hx => hv x (by simp [hx])
    by_cases h : pyStrip u.content = []
    · unfold segsGo
      rw [if_pos h]
      simp only [List.map_cons]
      exact (ih hvs n).cons _
    · unfold segsGo
      rw [if_neg h]
      simp only [List.map_cons]
      have hh : ((mkSegment (n + 1) u).start_time, (mkSegment (n + 1) u).end_time) =
          ((⟨u.t1⟩ : String), (⟨u.t2⟩ : String)) := by
        simp only [mkSegment]
        rw [extract_ts_eval hv1.1 hv1.2]
      rw [hh]
      exact (ih hvs (n + 1)).cons₂ _

theorem segsGo_mem (units : List RawUnit) : ∀ (n : Nat) (s : Segment),
    s ∈ segsGo n units →
      ∃ u ∈ units, s.original = (⟨pyStrip u.content⟩ : String) ∧ pyStrip u.content ≠ [] := by
  induction units with
  | nil => intro n s hs; simp [segsGo] at hs
  | cons u us ih =>
    intro n s hs
    by_cases h : pyStrip u.content = []
    · unfold segsGo at hs
      rw [if_pos h] at hs
      obtain ⟨w, hw, hp⟩ := ih n s hs
      exact ⟨w, List.mem_cons_of_mem _ hw, hp⟩
    · unfold segsGo at hs
      rw [if_neg h] at hs
      rcases List.mem_cons.mp hs with rfl | hs
      · exact ⟨u, by simp, rfl, h⟩
      · obtain ⟨w, hw, hp⟩ := ih (n + 1) s hs
        exact ⟨w, List.mem_cons_of_mem _ hw, hp⟩

/-! ## Claim C5 -/

/-- C5: for every input, `process_segments` assigns ids 1, 2, …, n with
no gaps, preserves the left-to-right order of the timestamp headers (its
header sequence is a sublist of the scanned header sequence of the
input), and every produced segment is the trimmed, non-whitespace content
of some unit following a header — so neither text before the first
header nor a whitespace-only unit yields a segment. -/
theorem c5_segmenter_invariants (text : String) :
    ((process_segments text).map Segment.id =
      List.range' 1 (process_segments text).length) ∧
    ((process_segments text).map (fun s => (s.start_time, s.end_time))).Sublist
      ((scan text.data).2.map (fun u => ((⟨u.t1⟩ : String), (⟨u.t2⟩ : String)))) ∧
    (∀ s ∈ process_segments text,
      s.original ≠ "" ∧ pyStripS s.original = s.original ∧
      ∃ u ∈ (scan text.data).2, s.original = (⟨pyStrip u.content⟩ : String)) := by
  have hv := scan_units_valid text.data
  rw [process_segments_eq]
  refine ⟨segsGo_ids _ 0, segsGo_headers _ hv 0, ?_⟩
  intro s hs
  obtain ⟨u, hu, ho, hne⟩ := segsGo_mem _ 0 s hs
  refine ⟨?_, ?_, u, hu, ho⟩
  · rw [ho]
    intro hc
    apply hne
    have : (⟨pyStrip u.content⟩ : String).data = ("" : String).data := by rw [hc]
    simpa using this
  · rw [ho]
    show pyStripS ⟨pyStrip u.content⟩ = (⟨pyStrip u.content⟩ : String)
    unfold pyStripS
    exact congrArg String.mk (pyStrip_idem u.content)

/-! ## Round-trip lemmas -/

theorem parseLBr_ne {c : Char} {cs : List Char} (h : c ≠ '[') :
    parseLBr (c :: cs) = none := by
  unfold parseLBr
  split
  · rename_i r heq
    rw [List.cons.injEq] at heq
    exact (h heq.1).elim
  · rfl

theorem matchHeader_nonbracket {c : Char} {cs : List Char} (h : c ≠ '[') :
    matchHeader (c :: cs) = none := by
  unfold matchHeader
  rw [parseLBr_ne h]
  rfl

theorem scan_append_nobracket {a : List Char} (h : ∀ ch ∈ a, ch ≠ '[')
    (b : List Char) : scan (a ++ b) = (a ++ (scan b).1, (scan b).2) := by
  induction a with
  | nil => simp
  | cons c a ih =>
    have hc := h c (by simp)
    have ha : ∀ ch ∈ a, ch ≠ '[' := fun x hx => h x (by simp [hx])
    rw [List.cons_append, scan_cons_of_nomatch (matchHeader_nonbracket hc), ih ha]
    simp

theorem string_data_ne {s : String} (h : s ≠ "") : s.data ≠ [] := by
  intro hd
  apply h
  cases s with
  | mk d => simpa using congrArg String.mk hd

theorem pyStrip_wrap {c : List Char} (hne : c ≠ [])
    (hstrip : pyStrip c = c) : pyStrip ('\n' :: c ++ ['\n', '\n']) = c := by
  have h1 : headNotWs c = true := by
    rw [← hstrip]; exact pyStrip_headNotWs c
  have h2 : headNotWs c.reverse = true := by
    rw [← hstrip]; exact pyStrip_revHeadNotWs c
  unfold pyStrip
  rw [List.cons_append, List.dropWhile_cons]
  rw [if_pos (by decide : ('\n' : Char).isWhitespace = true)]
  rw [List.dropWhile_append, dropWhile_ws_eq_self h1]
  rw [if_neg (by simp [hne])]
  have e : (c ++ ['\n', '\n']).reverse = '\n' :: '\n' :: c.reverse := by simp
  rw [e, List.dropWhile_cons]
  rw [if_pos (by decide : ('\n' : Char).isWhitespace = true)]
  rw [List.dropWhile_cons]
  rw [if_pos (by decide : ('\n' : Char).isWhitespace = true)]
  rw [dropWhile_ws_eq_self h2, List.reverse_reverse]

theorem correct_text_chars_fst (x : List Char) :
    (correct_text_chars x).1 = (correct_text_run x).1 := by
  rcases h : correct_text_run x with ⟨c, log⟩
  simp [correct_text_chars, h]

theorem correct_text_run_fst_stripped (x : List Char) :
    pyStrip (correct_text_run x).1 = (correct_text_run x).1 := by
  rcases h : applyRules x [] (tech_terms ++ ending_fixes ++ repetition_patterns ++
      filler_patterns ++ naturalness_rules ++ punctuation_rules) with ⟨t6, log⟩
  simp only [correct_text_run, h]
  exact pyStrip_idem _

theorem correct_text_chars_fst_stripped (x : List Char) :
    pyStrip (correct_text_chars x).1 = (correct_text_chars x).1 := by
  rw [correct_text_chars_fst]
  exact correct_text_run_fst_stripped x

theorem segsGo_mem_fields (units : List RawUnit)
    (hv : ∀ u ∈ units, validTime u.t1 ∧ validTime u.t2) :
    ∀ (n : Nat) (s : Segment), s ∈ segsGo n units →
      validTime s.start_time.data ∧ validTime s.end_time.data ∧
      pyStrip s.corrected.data = s.corrected.data := by
  induction units with
  | nil => intro n s hs; simp [segsGo] at hs
  | cons u us ih =>
    intro n s hs
    have hvu := hv u (by simp)
    have hvs : ∀ x ∈ us, validTime x.t1 ∧ validTime x.t2 :=
      fun x hx => hv x (by simp [hx])
    by_cases h : pyStrip u.content = []
    · unfold segsGo at hs
      rw [if_pos h] at hs
      exact ih hvs n s hs
    · unfold segsGo at hs
      rw [if_neg h] at hs
      rcases List.mem_cons.mp hs with rfl | hs
      · refine ⟨?_, ?_, ?_⟩
        · show validTime (⟨(extract_ts (headerText u)).1⟩ : String).data
          rw [extract_ts_eval hvu.1 hvu.2]
          exact hvu.1
        · show validTime (⟨(extract_ts (headerText u)).2⟩ : String).data
          rw [extract_ts_eval hvu.1 hvu.2]
          exact hvu.2
        · exact correct_text_chars_fst_stripped _
      · exact ih hvs (n + 1) s hs

theorem process_segments_fields (text : String) :
    ∀ s ∈ process_segments text,
      validTime s.start_time.data ∧ validTime s.end_time.data ∧
      pyStrip s.corrected.data = s.corrected.data := by
  rw [process_segments_eq]
  exact segsGo_mem_fields _ (scan_units_valid text.data) 0

theorem serialize_data_eq (s : Segment) (rest : List Char) :
    (serializeSegment s).data ++ rest =
      '[' :: (s.start_time.data ++ (' ' :: '-' :: ' ' :: (s.end_time.data ++
        (']' :: (('\n' :: s.corrected.data ++ ['\n', '\n']) ++ rest))))) := by
  simp [serializeSegment, String.data_append]

theorem scan_serialized (segs : List Segment)
    (h : ∀ s ∈ segs, validTime s.start_time.data ∧ validTime s.end_time.data ∧
      s.corrected ≠ "" ∧ ∀ ch ∈ s.corrected.data, ch ≠ '[') :
    scan (write_output segs).data = ([], segs.map unitOf) := by
  induction segs with
  | nil => rw [show (write_output []).data = [] from rfl, scan_nil]; rfl
  | cons s ss ih =>
    obtain ⟨hvs, hve, hne, hnb⟩ := h s (by simp)
    have hss : ∀ x ∈ ss, validTime x.start_time.data ∧ validTime x.end_time.data ∧
        x.corrected ≠ "" ∧ ∀ ch ∈ x.corrected.data, ch ≠ '[' :=
      fun x hx => h x (by simp [hx])
    have hdata : (write_output (s :: ss)).data =
        '[' :: (s.start_time.data ++ (' ' :: '-' :: ' ' :: (s.end_time.data ++
          (']' :: (('\n' :: s.corrected.data ++ ['\n', '\n']) ++
            (write_output ss).data))))) := by
      rw [show write_output (s :: ss) = serializeSegment s ++ write_output ss from rfl]
      rw [String.data_append]
      exact serialize_data_eq s _
    rw [hdata, scan_of_match (matchHeader_eval hvs hve)]
    have hwrapnb : ∀ ch ∈ '\n' :: s.corrected.data ++ ['\n', '\n'], ch ≠ '[' := by
      intro ch hch
      rcases List.mem_cons.mp hch with rfl | hch
      · decide
      · rcases List.mem_append.mp hch with hch | hch
        · exact hnb ch hch
        · rcases List.mem_cons.mp hch with rfl | hch
          · decide
          · rcases List.mem_cons.mp hch with rfl | hch
            · decide
            · simp at hch
    rw [scan_append_nobracket hwrapnb, ih hss]
    simp [unitOf]

theorem segsGo_roundtrip (segs : List Segment)
    (h : ∀ s ∈ segs, pyStrip s.corrected.data = s.corrected.data ∧ s.corrected ≠ "" ∧
      validTime s.start_time.data ∧ validTime s.end_time.data) :
    ∀ n : Nat,
      (segsGo n (segs.map unitOf)).map (fun t => (t.start_time, t.end_time, t.original)) =
        segs.map (fun s => (s.start_time, s.end_time, s.corrected)) := by
  induction segs with
  | nil => intro n; simp [segsGo]
  | cons s ss ih =>
    intro n
    obtain ⟨hstrip, hne, hvs, hve⟩ := h s (by simp)
    have hss : ∀ x ∈ ss, pyStrip x.corrected.data = x.corrected.data ∧ x.corrected ≠ "" ∧
        validTime x.start_time.data ∧ validTime x.end_time.data :=
      fun x hx => h x (by simp [hx])
    have hwrap : pyStrip (unitOf s).content = s.corrected.data :=
      pyStrip_wrap (string_data_ne hne) hstrip
    have hne2 : ¬pyStrip (unitOf s).content = [] := by
      rw [hwrap]; exact string_data_ne hne
    simp only [List.map_cons]
    unfold segsGo
    rw [if_neg hne2]
    simp only [List.map_cons]
    congr 1
    · show ((mkSegment (n + 1) (unitOf s)).start_time,
          (mkSegment (n + 1) (unitOf s)).end_time,
          (mkSegment (n + 1) (unitOf s)).original) =
        (s.start_time, s.end_time, s.corrected)
      simp only [mkSegment]
      rw [extract_ts_eval (u := unitOf s) hvs hve, hwrap]
      rfl
    · exact ih hss (n + 1)

theorem roundtrip_core (segs : List Segment)
    (h : ∀ s ∈ segs, validTime s.start_time.data ∧ validTime s.end_time.data ∧
      pyStrip s.corrected.data = s.corrected.data ∧ s.corrected ≠ "" ∧
      ∀ ch ∈ s.corrected.data, ch ≠ '[') :
    (process_segments (write_output segs)).map
        (fun t => (t.start_time, t.end_time, t.original)) =
      segs.map (fun s => (s.start_time, s.end_time, s.corrected)) := by
  rw [process_segments_eq]
  rw [scan_serialized segs (fun s hs => ⟨(h s hs).1, (h s hs).2.1, (h s hs).2.2.2.1,
    (h s hs).2.2.2.2⟩)]
  exact segsGo_roundtrip segs (fun s hs => ⟨(h s hs).2.2.1, (h s hs).2.2.2.1,
    (h s hs).1, (h s hs).2.1⟩) 0

/-! ## Claim C9 -/

/-- C9 counterexample: the pipeline can produce a segment whose corrected
text is empty (original `えー` is removed entirely by the filler rule);
serialising and re-segmenting then drops that segment, so the tuple
sequences differ. -/
theorem c9_counterexample :
    (process_segments (write_output (process_segments "[0:00:01 - 0:00:05] えー"))).map
        (fun t => (t.start_time, t.end_time, t.original)) ≠
      (process_segments "[0:00:01 - 0:00:05] えー").map
        (fun s => (s.start_time, s.end_time, s.corrected)) := by
  decide

/-- C9 (amended): for every input whose pipeline output has only
non-empty corrected texts containing no `[` character, serialising the
segments in the output format and re-segmenting yields the identical
sequence of (start_time, end_time, trimmed text) tuples.  (Both side
conditions are necessary: a whitespace-only corrected text is dropped on
re-segmentation, and a corrected text containing a bracketed timestamp
would be split further.) -/
theorem c9_roundtrip (text : String)
    (h : ∀ s ∈ process_segments text,
      s.corrected ≠ "" ∧ ∀ ch ∈ s.corrected.data, ch ≠ '[') :
    (process_segments (write_output (process_segments text))).map
        (fun t => (t.start_time, t.end_time, t.original)) =
      (process_segments text).map (fun s => (s.start_time, s.end_time, s.corrected)) := by
  apply roundtrip_core
  intro s hs
  obtain ⟨hv1, hv2, hstr⟩ := process_segments_fields text s hs
  exact ⟨hv1, hv2, hstr, (h s hs).1, (h s hs).2⟩

/-- C9 amended, witness: a concrete two-segment transcript
round-trips. -/
theorem c9_roundtrip_witness :
    (process_segments (write_output
        (process_segments "[0:00:01 - 0:00:05] テスト[0:00:06 - 0:00:09] 講座です"))).map
        (fun t => (t.start_time, t.end_time, t.original)) =
      (process_segments "[0:00:01 - 0:00:05] テスト[0:00:06 - 0:00:09] 講座です").map
        (fun s => (s.start_time, s.end_time, s.corrected)) :=
  c9_roundtrip "[0:00:01 - 0:00:05] テスト[0:00:06 - 0:00:09] 講座です" (by decide)

/-! ## Line-splitting lemmas for the improved extractor -/

theorem splitNl_cons_eq (c : Char) (cs : List Char) :
    splitNl (c :: cs) =
      match splitNl cs with
      | [] => [[]]
      | x :: xs => if c = '\n' then [] :: x :: xs else (c :: x) :: xs := rfl

theorem splitNl_ne_nil (l : List Char) : splitNl l ≠ [] := by
  cases l with
  | nil => simp [splitNl]
  | cons c cs =>
    rw [splitNl_cons_eq]
    cases h : splitNl cs with
    | nil => simp
    | cons x xs =>
      by_cases hc : c = '\n' <;> simp [hc]

theorem splitNl_newline (r : List Char) : splitNl ('\n' :: r) = [] :: splitNl r := by
  rw [splitNl_cons_eq]
  cases h : splitNl r with
  | nil => exact (splitNl_ne_nil r h).elim
  | cons x xs => simp

theorem splitNl_append_line {a : List Char} (h : ∀ ch ∈ a, ch ≠ '\n')
    (r : List Char) : splitNl (a ++ '\n' :: r) = a :: splitNl r := by
  induction a with
  | nil => simpa using splitNl_newline r
  | cons c a ih =>
    have hc := h c (by simp)
    have ha : ∀ ch ∈ a, ch ≠ '\n' := fun x hx => h x (by simp [hx])
    rw [List.cons_append, splitNl_cons_eq, ih ha]
    simp [hc]

theorem validTime_chars {t : List Char} (h : validTime t) :
    ∀ ch ∈ t, ch.isDigit = true ∨ ch = ':' := by
  obtain ⟨d1, d2, d3, he, _, hd1, _, hd2, _, hd3, _⟩ := matchTime_parts h
  subst he
  intro ch hch
  simp only [List.mem_append, List.mem_cons] at hch
  rcases hch with (h1 | rfl | h1) | rfl | h1
  · exact Or.inl (hd1 ch h1)
  · exact Or.inr rfl
  · exact Or.inl (hd2 ch h1)
  · exact Or.inr rfl
  · exact Or.inl (hd3 ch h1)

theorem time_char_ne_newline {ch : Char} (h : ch.isDigit = true ∨ ch = ':') :
    ch ≠ '\n' := by
  rintro rfl
  rcases h with h | h
  · simp at h
  · simp at h

theorem headerOf_data (s : Segment) :
    (headerOf s).data =
      '[' :: (s.start_time.data ++ (' ' :: '-' :: ' ' :: (s.end_time.data ++ [']']))) := by
  simp [headerOf, String.data_append]

theorem headerOf_no_newline {s : Segment} (hvs : validTime s.start_time.data)
    (hve : validTime s.end_time.data) : ∀ ch ∈ (headerOf s).data, ch ≠ '\n' := by
  rw [headerOf_data]
  intro ch hch
  simp only [List.mem_cons, List.mem_append] at hch
  rcases hch with rfl | (h1 | (rfl | (rfl | (rfl | (h1 | h1)))))
  · decide
  · exact time_char_ne_newline (validTime_chars hvs ch h1)
  · decide
  · decide
  · decide
  · exact time_char_ne_newline (validTime_chars hve ch h1)
  · rcases h1 with rfl | h1
    · decide
    · simp at h1

theorem headerOf_is_header {s : Segment} (hvs : validTime s.start_time.data)
    (hve : validTime s.end_time.data) : isHeaderLine (headerOf s).data = true := by
  rw [headerOf_data]
  unfold isHeaderLine
  rw [matchHeader_eval hvs hve]
  rfl

theorem headerOf_strip (s : Segment) : pyStrip (headerOf s).data = (headerOf s).data := by
  apply pyStrip_eq_self
  · rw [headerOf_data]
    simp [headNotWs]
  · apply headNotWs_of_head?
    intro c hc
    rw [List.head?_reverse] at hc
    have hl : (headerOf s).data.getLast? = some ']' := by
      rw [headerOf_data]
      have e : '[' :: (s.start_time.data ++
          (' ' :: '-' :: ' ' :: (s.end_time.data ++ [']']))) =
          ('[' :: (s.start_time.data ++ (' ' :: '-' :: ' ' :: s.end_time.data))) ++
            [']'] := by simp
      rw [e, List.getLast?_concat]
    rw [hl] at hc
    rcases Option.some.injEq .. ▸ hc with rfl
    decide

theorem notHeader_of_nobracket {l : List Char} (hne : l ≠ [])
    (h : ∀ ch ∈ l, ch ≠ '[') : isHeaderLine l = false := by
  cases l with
  | nil => exact (hne rfl).elim
  | cons c cs =>
    unfold isHeaderLine
    rw [matchHeader_nonbracket (h c (by simp))]
    rfl

theorem extractGo_last (cur : ImpSeg) :
    extractGo cur [] = if cur.content = "" then [] else [cur] := rfl

theorem extractGo_empty_line (cur : ImpSeg) (ls : List (List Char)) :
    extractGo cur ([] :: ls) = extractGo cur ls := rfl

theorem extractGo_header_line {l : List Char} (cur : ImpSeg) (ls : List (List Char))
    (hstrip : pyStrip l = l) (hhd : isHeaderLine l = true) :
    extractGo cur (l :: ls) =
      (if cur.content = "" then [] else [cur]) ++ extractGo ⟨⟨l⟩, ""⟩ ls := by
  simp only [extractGo, hstrip, hhd, if_true]

theorem extractGo_content_line {l : List Char} (cur : ImpSeg) (ls : List (List Char))
    (hstrip : pyStrip l = l) (hnh : isHeaderLine l = false) (hne : l ≠ []) :
    extractGo cur (l :: ls) =
      extractGo ⟨cur.timestamp, cur.content ++ ⟨l⟩ ++ " "⟩ ls := by
  simp only [extractGo, hstrip, hnh, Bool.false_eq_true, if_false]
  rw [if_pos hne]

theorem append_space_ne (x : String) : x ++ " " ≠ "" := by
  intro h
  have hd := congrArg String.data h
  rw [String.data_append] at hd
  simp at hd

theorem pyStrip_append_space {x : List Char} (hne : x ≠ [])
    (hstrip : pyStrip x = x) : pyStrip (x ++ [' ']) = x := by
  have h1 : headNotWs x = true := by
    rw [← hstrip]; exact pyStrip_headNotWs x
  have h2 : headNotWs x.reverse = true := by
    rw [← hstrip]; exact pyStrip_revHeadNotWs x
  unfold pyStrip
  rw [List.dropWhile_append, dropWhile_ws_eq_self h1]
  rw [if_neg (by simp [hne])]
  have e : (x ++ [' ']).reverse = ' ' :: x.reverse := by simp
  rw [e, List.dropWhile_cons]
  rw [if_pos (by decide : (' ' : Char).isWhitespace = true)]
  rw [dropWhile_ws_eq_self h2, List.reverse_reverse]

theorem pyStripS_append_space {x : String} (hne : x ≠ "")
    (hstrip : pyStrip x.data = x.data) : pyStripS (x ++ " ") = x := by
  unfold pyStripS
  rw [show (x ++ " ").data = x.data ++ [' '] from String.data_append ..]
  rw [pyStrip_append_space (string_data_ne hne) hstrip]

theorem extractGo_canonical (segs : List Segment)
    (h : ∀ s ∈ segs, validTime s.start_time.data ∧ validTime s.end_time.data ∧
      pyStrip s.corrected.data = s.corrected.data ∧ s.corrected ≠ "" ∧
      ∀ ch ∈ s.corrected.data, ch ≠ '[' ∧ ch ≠ '\n') :
    (∀ t : String, extractGo ⟨t, ""⟩ (splitNl (write_output segs).data) =
        segs.map (fun s => ⟨headerOf s, s.corrected ++ " "⟩)) ∧
    ∀ cur : ImpSeg, cur.content ≠ "" →
      extractGo cur (splitNl (write_output segs).data) =
        cur :: segs.map (fun s => ⟨headerOf s, s.corrected ++ " "⟩) := by
  induction segs with
  | nil =>
    constructor
    · intro t
      show extractGo ⟨t, ""⟩ [[]] = []
      rw [extractGo_empty_line, extractGo_last, if_pos rfl]
    · intro cur hcur
      show extractGo cur [[]] = [cur]
      rw [extractGo_empty_line, extractGo_last, if_neg hcur]
  | cons s ss ih =>
    obtain ⟨hvs, hve, hstrip, hne, hchars⟩ := h s (by simp)
    have hss : ∀ x ∈ ss, validTime x.start_time.data ∧ validTime x.end_time.data ∧
        pyStrip x.corrected.data = x.corrected.data ∧ x.corrected ≠ "" ∧
        ∀ ch ∈ x.corrected.data, ch ≠ '[' ∧ ch ≠ '\n' :=
      fun x hx => h x (by simp [hx])
    have ihss := ih hss
    have hcnl : ∀ ch ∈ s.corrected.data, ch ≠ '\n' := fun ch hch => (hchars ch hch).2
    have hcnb : ∀ ch ∈ s.corrected.data, ch ≠ '[' := fun ch hch => (hchars ch hch).1
    have hcne : s.corrected.data ≠ [] := string_data_ne hne
    have hlines : splitNl (write_output (s :: ss)).data =
        (headerOf s).data :: s.corrected.data :: [] :: splitNl (write_output ss).data := by
      have e : (write_output (s :: ss)).data =
          (headerOf s).data ++ '\n' :: (s.corrected.data ++ '\n' :: ('\n' ::
            (write_output ss).data)) := by
        rw [show write_output (s :: ss) = serializeSegment s ++ write_output ss from rfl,
          String.data_append, serialize_data_eq, headerOf_data]
        simp
      rw [e, splitNl_append_line (headerOf_no_newline hvs hve),
        splitNl_append_line hcnl, splitNl_newline]
    have htail : extractGo ⟨⟨(headerOf s).data⟩, ""⟩
        (s.corrected.data :: [] :: splitNl (write_output ss).data) =
          ⟨headerOf s, s.corrected ++ " "⟩ ::
            List.map (fun x => ⟨headerOf x, x.corrected ++ " "⟩) ss := by
      rw [extractGo_content_line _ _ hstrip (notHeader_of_nobracket hcne hcnb) hcne,
        extractGo_empty_line]
      exact ihss.2 ⟨headerOf s, s.corrected ++ " "⟩ (append_space_ne s.corrected)
    have hstep : ∀ cur : ImpSeg,
        extractGo cur (splitNl (write_output (s :: ss)).data) =
          (if cur.content = "" then [] else [cur]) ++
            (⟨headerOf s, s.corrected ++ " "⟩ ::
              List.map (fun x => ⟨headerOf x, x.corrected ++ " "⟩) ss) := by
      intro cur
      rw [hlines, extractGo_header_line cur _ (headerOf_strip s)
        (headerOf_is_header hvs hve), htail]
    constructor
    · intro t
      rw [hstep ⟨t, ""⟩, if_pos rfl]
      rfl
    · intro cur hcur
      rw [hstep cur, if_neg hcur]
      rfl

/-! ## Helper lemmas -/

theorem pymin_eq_min (a b : ℚ) : pymin a b = min a b := by
  unfold pymin
  rw [min_def]

theorem pymax_eq_max (a b : ℚ) : pymax a b = max a b := by
  unfold pymax
  rw [max_def]
  split_ifs with h1 h2 h2 <;> first | rfl | exact le_antisymm h2 h1 | exact (h1 (le_of_not_le h2)).elim

theorem simple_quality_nonneg (log : List String) : 0 ≤ simple_quality log := by
  unfold simple_quality
  rw [pymin_eq_min]
  apply le_min
  · norm_num
  · positivity

theorem simple_quality_le_one (log : List String) : simple_quality log ≤ 1 := by
  unfold simple_quality
  rw [pymin_eq_min]
  exact min_le_left _ _

theorem simple_quality_ge_base (log : List String) : 3 / 10 ≤ simple_quality log := by
  unfold simple_quality
  rw [pymin_eq_min]
  apply le_min
  · norm_num
  · have : (0 : ℚ) ≤ (log.length : ℚ) / 5 := by positivity
    linarith

theorem clamp01_nonneg (x : ℚ) : 0 ≤ clamp01 x := by
  unfold clamp01
  rw [pymin_eq_min, pymax_eq_max]
  exact le_min (le_max_right _ _) zero_le_one

theorem clamp01_le_one (x : ℚ) : clamp01 x ≤ 1 := by
  unfold clamp01
  rw [pymin_eq_min]
  exact min_le_right _ _

theorem correct_text_quality_eq (t : String) :
    (correct_text t).2.2 = simple_quality (correct_text t).2.1 := by
  unfold correct_text correct_text_chars
  rcases h : correct_text_run t.data with ⟨c, log⟩
  rfl

theorem llm_flag_append (l : List String) :
    llm_used_flag (l ++ ["LLM文脈修正"]) = true := by
  unfold llm_used_flag
  rw [List.any_append]
  have : containsSubS "LLM" "LLM文脈修正" = true := by decide
  simp [this]

theorem enhanced_none (text : String) :
    enhanced_correct_text none text = correct_text text := by
  simp only [enhanced_correct_text]
  split <;> rfl

theorem enhanced_some_empty (text : String) :
    enhanced_correct_text (some "") text = correct_text text := by
  simp only [enhanced_correct_text]
  split
  · rw [if_neg (by simp)]
  · rfl

theorem enhanced_some_same (text : String) :
    enhanced_correct_text (some (correct_text text).1) text = correct_text text := by
  simp only [enhanced_correct_text]
  split
  · rw [if_neg (by simp)]
  · rfl

theorem enhanced_some_diff (text : String) (r : String) (h1 : r ≠ "")
    (h2 : r ≠ (correct_text text).1)
    (hg : needs_llm_correction (correct_text text).1 = true) :
    enhanced_correct_text (some r) text =
      (r, (correct_text text).2.1 ++ ["LLM文脈修正"],
        pymin 1 ((correct_text text).2.2 + 3 / 10)) := by
  simp only [enhanced_correct_text]
  rw [if_pos hg, if_pos ⟨h1, h2⟩]

theorem foldl_add_weight (l : List String) (a : ℚ) :
    l.foldl (fun s c => s + correction_weight c) a =
      a + (l.map correction_weight).sum := by
  induction l generalizing a with
  | nil => simp
  | cons x xs ih => simp [ih]; ring

/-! ## Claim C1 -/

/-- C1: for every input string and both scorer variants — the simple
score computed by `correct_text` and the refined score computed by
`calculate_realistic_quality_score` — the returned quality lies in the
closed interval [0, 1]. -/
theorem c1_quality_scores_in_unit_interval (t o c : String) (cors : List String) :
    (0 ≤ (correct_text t).2.2 ∧ (correct_text t).2.2 ≤ 1) ∧
    (0 ≤ calculate_realistic_quality_score o c cors ∧
      calculate_realistic_quality_score o c cors ≤ 1) := by
  refine ⟨⟨?_, ?_⟩, ?_, ?_⟩
  · rw [correct_text_quality_eq]; exact simple_quality_nonneg _
  · rw [correct_text_quality_eq]; exact simple_quality_le_one _
  · exact clamp01_nonneg _
  · exact clamp01_le_one _

/-! ## Claim C10 -/

/-- C10: the simple scorer of `correct_text` never returns less than its
base value 0.3, even when no corrections were applied. -/
theorem c10_quality_ge_base (t : String) : 3 / 10 ≤ (correct_text t).2.2 := by
  rw [correct_text_quality_eq]; exact simple_quality_ge_base _

/-! ## Claim C6 -/

/-- C6 counterexample: on `申しす ございす` both ending-fix patterns
fire, giving two log entries in the SAME category; the code scores
0.3 + 0.2 per log entry = 0.7, while the claimed per-distinct-category
formula gives 0.5. -/
theorem c6_counterexample :
    (correct_text "申しす ございす").2.2 ≠ spec_simple_score "申しす ございす" := by
  have hlog : (correct_text "申しす ございす").2.1 =
      ["語尾修正: 申します", "語尾修正: ございます"] := by decide
  have hded : (((["語尾修正: 申します", "語尾修正: ございます"] : List String).map
      entry_category).dedup.length) = 1 := by decide
  rw [correct_text_quality_eq, hlog]
  unfold spec_simple_score
  rw [hlog, hded]
  norm_num [simple_quality, pymin]

/-- C6 (amended): the lightweight scorer returns 0.3 plus 0.2 per
correction-log entry — one entry per rule pattern that matched, so two
patterns of the same category each contribute — capped at 1.0. -/
theorem c6_simple_score_per_entry (t : String) :
    (correct_text t).2.2 =
      pymin 1 (3 / 10 + (1 / 5) * ((correct_text t).2.1.length : ℚ)) := by
  rw [correct_text_quality_eq]
  unfold simple_quality
  congr 1
  ring

/-! ## Claim C4 -/

/-- C4 counterexample: on the spec's own example input the pipeline does
NOT emit the output the claim states.  The ending `申しす` is directly
followed by `ございす`, so the lookahead `(?=\s|$)` of the `申しす` rule
fails, and no punctuation rule can fire either. -/
theorem c4_counterexample :
    write_output (process_segments "[0:00:01 - 0:00:05] 申しすございす") ≠
      "[0:00:01 - 0:00:05]\n申します。ございます。\n\n" := by
  decide

/-- C4 (amended): on the example input the pipeline emits
`[0:00:01 - 0:00:05]\n申しすございます\n\n`, and the segment's log holds
exactly one ending-fix entry and no punctuation entry. -/
theorem c4_actual_output :
    write_output (process_segments "[0:00:01 - 0:00:05] 申しすございす") =
      "[0:00:01 - 0:00:05]\n申しすございます\n\n" ∧
    (process_segments "[0:00:01 - 0:00:05] 申しすございす").map
        (fun s => s.corrections) = [["語尾修正: ございます"]] := by
  exact ⟨by decide, by decide⟩

/-! ## Claim C2 -/

/-- C2 counterexample: the unit `エルエム 帰漏らし` escalates (it still
contains `帰漏らし` after rule correction), the adapter is unavailable
(`none`), the result degrades to the rule result — yet the segment's
`llm_used` flag is `true`, because the flag is computed as
`any('LLM' in c for c in corrections)` and the rule log contains
`専門用語: LLM` from the `エルエム → LLM` fix. -/
theorem c2_counterexample :
    needs_llm_correction (correct_text "エルエム 帰漏らし").1 = true ∧
    enhanced_correct_text none "エルエム 帰漏らし" = correct_text "エルエム 帰漏らし" ∧
    (process_segments_enhanced (fun _ => none)
        "[0:00:01 - 0:00:05] エルエム 帰漏らし").map (fun s => s.llm_used) = [true] := by
  exact ⟨by decide, enhanced_none _, by decide⟩

/-- C2 (amended): when the adapter fails (`none`), returns an empty
text, or returns exactly the rule-corrected text, `enhanced_correct_text`
returns the rule result unchanged (text, log and quality), and the
segment's `llm_used` flag equals whether some RULE log entry contains the
substring `LLM` — false in particular whenever the `エルエム → LLM`
technical-term fix did not fire; when the gate fired and the adapter
returns a different non-empty text, that text is used, one `LLM文脈修正`
entry is appended, the quality becomes `min(1, rule_quality + 0.3)` and
`llm_used` is true. -/
theorem c2_enhanced_correct_text_behaviour (text : String) (resp : Option String) :
    ((resp = none ∨ resp = some "" ∨ resp = some (correct_text text).1) →
      enhanced_correct_text resp text = correct_text text ∧
      llm_used_flag (enhanced_correct_text resp text).2.1 =
        llm_used_flag (correct_text text).2.1) ∧
    (∀ r, resp = some r → r ≠ "" → r ≠ (correct_text text).1 →
      needs_llm_correction (correct_text text).1 = true →
      enhanced_correct_text resp text =
        (r, (correct_text text).2.1 ++ ["LLM文脈修正"],
          pymin 1 ((correct_text text).2.2 + 3 / 10)) ∧
      llm_used_flag (enhanced_correct_text resp text).2.1 = true) := by
  constructor
  · intro hcase
    have hr : enhanced_correct_text resp text = correct_text text := by
      rcases hcase with rfl | rfl | rfl
      · exact enhanced_none text
      · exact enhanced_some_empty text
      · exact enhanced_some_same text
    exact ⟨hr, by rw [hr]⟩
  · rintro r rfl h1 h2 hg
    have he := enhanced_some_diff text r h1 h2 hg
    refine ⟨he, ?_⟩
    rw [he]
    exact llm_flag_append _

/-- C2 amended, witness: a concrete escalated unit with a successful,
different adapter reply. -/
theorem c2_enhanced_correct_text_behaviour_witness :
    enhanced_correct_text (some "聞き漏らし") "帰漏らし" =
      ("聞き漏らし", ["LLM文脈修正"], 3 / 5) ∧
    llm_used_flag (enhanced_correct_text (some "聞き漏らし") "帰漏らし").2.1 = true := by
  have h := (c2_enhanced_correct_text_behaviour "帰漏らし" (some "聞き漏らし")).2
    "聞き漏らし" rfl (by decide) (by decide) (by decide)
  refine ⟨h.1.trans ?_, h.2⟩
  have hlog : (correct_text "帰漏らし").2.1 = ([] : List String) := by decide
  rw [correct_text_quality_eq, hlog]
  norm_num [simple_quality, pymin]

/-! ## Claim C3 -/

theorem realistic_score_eq (o c : String) (cors : List String) :
    calculate_realistic_quality_score o c cors =
      clamp01 (1 / 2 + (cors.map correction_weight).sum + length_adjust o c
        + (if detect_obvious_improvements o c then 3 / 20 else 0)
        + (if detect_deterioration o c then -(3 / 10) else 0)) := by
  unfold calculate_realistic_quality_score clamp01 length_adjust
  rw [foldl_add_weight]
  exact congrArg (fun x => pymin (pymax x 0) 1) (by simp only [div_eq_mul_inv]; split_ifs <;> ring)

/-- C3 counterexample: the code adds the weight once per ENTRY of the
corrections list, not once per detected category: with the category
`technical_terms` detected twice the code scores 1.0, the claimed
formula 0.8. -/
theorem c3_counterexample :
    calculate_realistic_quality_score "aaaaaaaaaa" "aaaaaaaaaa"
        ["technical_terms", "technical_terms"] = 1 ∧
    spec_weighted_score "aaaaaaaaaa" "aaaaaaaaaa"
        ["technical_terms", "technical_terms"] = 4 / 5 ∧
    calculate_realistic_quality_score "aaaaaaaaaa" "aaaaaaaaaa"
        ["technical_terms", "technical_terms"] ≠
      spec_weighted_score "aaaaaaaaaa" "aaaaaaaaaa"
        ["technical_terms", "technical_terms"] := by
  have hlen : ("aaaaaaaaaa" : String).length = 10 := rfl
  have hobv : detect_obvious_improvements "aaaaaaaaaa" "aaaaaaaaaa" = false := by decide
  have hdet : detect_deterioration "aaaaaaaaaa" "aaaaaaaaaa" = false := by decide
  have hsum : ((["technical_terms", "technical_terms"] : List String).map
      correction_weight).sum = 2 / 5 := by
    simp [correction_weight]
    norm_num
  have hla : length_adjust "aaaaaaaaaa" "aaaaaaaaaa" = 1 / 10 := by
    unfold length_adjust
    rw [hlen]
    norm_num
  have hded : (["technical_terms", "technical_terms"] : List String).dedup =
      ["technical_terms"] := by decide
  have hcalc : calculate_realistic_quality_score "aaaaaaaaaa" "aaaaaaaaaa"
      ["technical_terms", "technical_terms"] = 1 := by
    rw [realistic_score_eq, hsum, hla]
    simp only [hobv, hdet, Bool.false_eq_true, if_false]
    norm_num [clamp01, pymin, pymax]
  have hspec : spec_weighted_score "aaaaaaaaaa" "aaaaaaaaaa"
      ["technical_terms", "technical_terms"] = 4 / 5 := by
    unfold spec_weighted_score
    rw [hlen, hded]
    simp only [hobv, hdet, Bool.false_eq_true, if_false]
    norm_num [spec_category_weight, clamp01, pymin, pymax]
  refine ⟨hcalc, hspec, ?_⟩
  rw [hcalc, hspec]
  norm_num

/-- C3 (amended): the refined scorer equals the clamp to [0, 1] of: 0.5
base, plus the weight per ENTRY of the corrections list (0.02 default
for an entry outside the six tabulated categories), plus the
length-ratio adjustment with denominator `max(len(original), 1)`, plus
0.15 for an obvious improvement, minus 0.3 for a detected
deterioration. -/
theorem c3_realistic_score_closed_form (o c : String) (cors : List String) :
    calculate_realistic_quality_score o c cors =
      clamp01 (1 / 2 + (cors.map correction_weight).sum + length_adjust o c
        + (if detect_obvious_improvements o c then 3 / 20 else 0)
        + (if detect_deterioration o c then -(3 / 10) else 0)) :=
  realistic_score_eq o c cors

/-! ## Claim C8 -/

/-- C8: with zero segments `save_batch_stats` correctly yields the
all-zero statistics record, BUT the claim that no division by zero can
occur is wrong: on an empty original file (zero extractable segments)
`calculate_overall_metrics` evaluates `(len(o) - len(c)) / len(o)` with
`len(o) = 0` and raises `ZeroDivisionError` (swallowed upstream into an
error object instead of a statistics object). -/
theorem c8_zero_segment_statistics :
    save_batch_stats [] 0 0 0 = ⟨0, 0, 0, 0, 0, 0, 0⟩ ∧
    calculate_overall_metrics "" "" = Except.error "ZeroDivisionError" := by
  refine ⟨?_, rfl⟩
  unfold save_batch_stats
  norm_num

/-! ## Claim C7 (counterexample part) -/

/-- C7 counterexample: on `[0:00:01 - 0:00:05] hello` — header and
content on one line — the main Segmenter emits one unit, while
`extract_segments_improved` treats the whole line as a timestamp line
(its `re.match` allows trailing text) and emits nothing. -/
theorem c7_counterexample :
    (process_segments "[0:00:01 - 0:00:05] hello").map
        (fun s => ("[" ++ s.start_time ++ " - " ++ s.end_time ++ "]", s.original)) =
      [("[0:00:01 - 0:00:05]", "hello")] ∧
    extract_segments_improved "[0:00:01 - 0:00:05] hello" = [] := by
  exact ⟨by decide, by decide⟩

/-- C7 (amended): the two segmenters do NOT agree on arbitrary text (the
improved extractor is line-based and drops a header sharing its line with
content, see the counterexample); they do agree on the pipeline's own
serialised output.  For every segment list whose timestamps match the
header pattern and whose corrected texts are stripped, non-empty and free
of `[` and newlines, extracting segments from the written output yields,
after stripping each content, exactly the (header, original) pairs that
`process_segments` recovers from that same output. -/
theorem c7_segmenters_agree (segs : List Segment)
    (h : ∀ s ∈ segs, validTime s.start_time.data ∧ validTime s.end_time.data ∧
      pyStrip s.corrected.data = s.corrected.data ∧ s.corrected ≠ "" ∧
      ∀ ch ∈ s.corrected.data, ch ≠ '[' ∧ ch ≠ '\n') :
    (extract_segments_improved (write_output segs)).map
        (fun u => (u.timestamp, pyStripS u.content)) =
      (process_segments (write_output segs)).map
        (fun t => (headerOf t, t.original)) := by
  have hext := (extractGo_canonical segs h).1 ""
  have hcore := roundtrip_core segs (fun s hs => ⟨(h s hs).1, (h s hs).2.1,
    (h s hs).2.2.1, (h s hs).2.2.2.1, fun ch hch => ((h s hs).2.2.2.2 ch hch).1⟩)
  have hR := congrArg (List.map (fun p : String × String × String =>
    (("[" ++ p.1 ++ " - " ++ p.2.1 ++ "]" : String), p.2.2))) hcore
  rw [List.map_map, List.map_map] at hR
  unfold extract_segments_improved
  rw [hext, List.map_map]
  refine Eq.trans ?_ hR.symm
  apply List.map_congr_left
  intro x hx
  obtain ⟨hvs, hve, hstrip, hne, hch⟩ := h x hx
  show (headerOf x, pyStripS (x.corrected ++ " ")) =
    ("[" ++ x.start_time ++ " - " ++ x.end_time ++ "]", x.corrected)
  rw [pyStripS_append_space hne hstrip]
  rfl

theorem c7_segmenters_agree_witness :
    (extract_segments_improved
        (write_output [⟨1, "0:00:01", "0:00:05", "hello", "hello", [], 1⟩])).map
        (fun u => (u.timestamp, pyStripS u.content)) =
      (process_segments
          (write_output [⟨1, "0:00:01", "0:00:05", "hello", "hello", [], 1⟩])).map
        (fun t => (headerOf t, t.original)) :=
  c7_segmenters_agree [⟨1, "0:00:01", "0:00:05", "hello", "hello", [], 1⟩] (by decide)

end TranscriptAI
